import Mathlib

/-! String analyzer service (`src/server.js`).

A shallow embedding of the Express handlers of `src/server.js` and of the
JavaScript string operations they use, followed by theorems about them.

Modelling conventions

* A JavaScript string is the list of its UTF-16 code units (`JSString`).
  `value.length` counts code units; `new Set(value)` and `for (... of value)`
  iterate code points (`codePoints`).
* The module-level array `STRINGS` is passed explicitly: every handler takes
  the current array and returns its outcome together with the new array.
* `crypto.createHash("sha256")...digest("hex")` on a string is a parameter
  `sha256 : JSString → JSString`; `new Date().toISOString()` is a parameter
  `now` of the create handler.
* Handlers receive what Express hands them: the `value` field of the parsed
  JSON body, the decoded path parameter, the parsed query parameters. URL
  routing and decoding are outside the embedding.
-/

namespace Server

/-! ## JavaScript strings -/

/-- A JavaScript string: its sequence of UTF-16 code units. -/
abbrev JSString := List Nat

/-- UTF-16 code units of one Unicode scalar value. -/
def utf16 (c : Nat) : List Nat :=
  if c < 0x10000 then [c]
  else [0xD800 + (c - 0x10000) / 0x400, 0xDC00 + (c - 0x10000) % 0x400]

/-- The JavaScript string denoted by a literal. -/
def js (s : String) : JSString :=
  s.toList.flatMap (fun c => utf16 c.toNat)

def isHighSurrogate (u : Nat) : Bool := 0xD800 ≤ u && u ≤ 0xDBFF

def isLowSurrogate (u : Nat) : Bool := 0xDC00 ≤ u && u ≤ 0xDFFF

/-- The string iterator (`for (let char of value)`, `new Set(value)`): one
    string per code point; a high surrogate followed by a low surrogate is one
    element of two code units, any other code unit is an element of its own. -/
def codePoints : JSString → List JSString
  | [] => []
  | [u] => [[u]]
  | u :: v :: rest =>
    if isHighSurrogate u && isLowSurrogate v then [u, v] :: codePoints rest
    else [u] :: codePoints (v :: rest)

/-- The characters matched by `\s` and removed by `trim()`: WhiteSpace and
    LineTerminator code units. -/
def isWhiteSpace (u : Nat) : Bool :=
  u == 0x09 || u == 0x0A || u == 0x0B || u == 0x0C || u == 0x0D || u == 0x20 ||
  u == 0xA0 || u == 0x1680 || (0x2000 ≤ u && u ≤ 0x200A) || u == 0x2028 ||
  u == 0x2029 || u == 0x202F || u == 0x205F || u == 0x3000 || u == 0xFEFF

/-- `String.prototype.trim`. -/
def trim (s : JSString) : JSString :=
  ((s.dropWhile isWhiteSpace).reverse.dropWhile isWhiteSpace).reverse

/-- The scan of `split(/\s+/)`: `cur` is the piece being collected, `inRun`
    tells that the previous code unit belonged to a separator match. -/
def splitWhiteSpaceAux : JSString → Bool → JSString → List JSString
  | cur, _, [] => [cur]
  | cur, inRun, u :: rest =>
    if isWhiteSpace u then
      if inRun then splitWhiteSpaceAux [] true rest
      else cur :: splitWhiteSpaceAux [] true rest
    else splitWhiteSpaceAux (cur ++ [u]) false rest

/-- `s.split(/\s+/)`: the pieces between the maximal runs of white space; the
    empty string gives one empty piece. -/
def splitWhiteSpace (s : JSString) : List JSString :=
  splitWhiteSpaceAux [] false s

/-- `String.prototype.toLowerCase` for one code unit. Upper-case ASCII letters
    go to lower case, U+0130 goes to `i` followed by U+0307, U+212A (Kelvin
    sign) goes to `k`. No other code point has a lower-case form containing an
    ASCII letter or digit; those are left as they are, which the
    `replace(/[^a-z0-9]/g, "")` applied to the result cannot tell from their
    real lower-case form. -/
def toLowerCaseUnit (u : Nat) : List Nat :=
  if 0x41 ≤ u && u ≤ 0x5A then [u + 0x20]
  else if u == 0x130 then [0x69, 0x307]
  else if u == 0x212A then [0x6B]
  else [u]

/-- `value.toLowerCase()`. -/
def toLowerCase (s : JSString) : JSString :=
  s.flatMap toLowerCaseUnit

/-- The complement of the class `[^a-z0-9]`. -/
def isLowerAlnum (u : Nat) : Bool :=
  (0x61 ≤ u && u ≤ 0x7A) || (0x30 ≤ u && u ≤ 0x39)

/-- `s.replace(/[^a-z0-9]/g, "")`. -/
def stripNonAlnum (s : JSString) : JSString :=
  s.filter isLowerAlnum

/-- `const cleaned = value.toLowerCase().replace(/[^a-z0-9]/g, "")`. -/
def cleaned (value : JSString) : JSString :=
  stripNonAlnum (toLowerCase value)

/-- `cleaned === cleaned.split("").reverse().join("")`. -/
def is_palindrome (value : JSString) : Bool :=
  cleaned value == (cleaned value).reverse

/-- `new Set(value).size`. -/
def unique_characters (value : JSString) : Nat :=
  (codePoints value).eraseDups.length

/-- `value.trim().split(/\s+/).filter((word) => word.length > 0).length`. -/
def word_count (value : JSString) : Nat :=
  ((splitWhiteSpace (trim value)).filter (fun word => decide (word.length > 0))).length

/-- A `character_frequency_map` object: its own keys with their counts, in
    order of first insertion. -/
abbrev FrequencyMap := List (JSString × Nat)

/-- Reading `map[key]`: `none` is `undefined`. -/
def FrequencyMap.get (map : FrequencyMap) (key : JSString) : Option Nat :=
  (map.find? (fun kv => kv.1 == key)).map (fun kv => kv.2)

/-- Writing `map[key] = n`. -/
def FrequencyMap.set : FrequencyMap → JSString → Nat → FrequencyMap
  | [], key, n => [(key, n)]
  | (k, m) :: rest, key, n =>
    if k == key then (k, n) :: rest else (k, m) :: FrequencyMap.set rest key n

/-- The loop body `map[char] = (map[char] || 0) + 1`. -/
def countChar (map : FrequencyMap) (char : JSString) : FrequencyMap :=
  map.set char (((map.get char).getD 0) + 1)

/-- The loop `for (let char of value) { ... }` starting from `{}`. -/
def character_frequency_map (value : JSString) : FrequencyMap :=
  (codePoints value).foldl countChar []

/-! ## Records -/

/-- The `properties` object of a record. -/
structure Properties where
  length : Nat
  is_palindrome : Bool
  unique_characters : Nat
  word_count : Nat
  sha256_hash : JSString
  character_frequency_map : FrequencyMap
  deriving DecidableEq, Repr

/-- One element of `STRINGS` (`newStringObj`). -/
structure StringObj where
  id : JSString
  value : JSString
  properties : Properties
  created_at : JSString
  deriving DecidableEq, Repr

/-- The derived properties computed by the create handler (lines 37-69) from
    the raw string and its digest. -/
def analyze (sha256 : JSString → JSString) (value : JSString) : Properties :=
  { length := value.length
    is_palindrome := is_palindrome value
    unique_characters := unique_characters value
    word_count := word_count value
    sha256_hash := sha256 value
    character_frequency_map := character_frequency_map value }

/-! ## Requests and responses -/

/-- A value of a parsed JSON body (`undefined` for a field that is absent).
    Arrays and objects carry no content: no handler inspects it. A number is
    given by its integer value. -/
inductive JSValue where
  | undefined
  | null
  | bool (b : Bool)
  | number (n : Int)
  | string (s : JSString)
  | array
  | object
  deriving DecidableEq, Repr

/-- JavaScript truthiness (`!value` is its negation). -/
def JSValue.truthy : JSValue → Bool
  | .undefined => false
  | .null => false
  | .bool b => b
  | .number n => n != 0
  | .string s => s != []
  | .array => true
  | .object => true

/-- `crypto.createHash("sha256").update(value).digest("hex")`. `update` takes a
    string (or a Buffer, TypedArray or DataView, which a parsed JSON value never
    is) and throws a `TypeError` on anything else: `none`. -/
def sha256Hex (sha256 : JSString → JSString) : JSValue → Option JSString
  | .string s => some (sha256 s)
  | _ => none

/-- A query parameter as parsed by Express: a string, or an array or object
    (repeated or bracketed parameter), carried with its `ToString` text. -/
inductive QueryValue where
  | str (s : JSString)
  | other (text : JSString)
  deriving DecidableEq, Repr

/-- The `filters` object: an absent field is `undefined`. -/
structure Filters where
  is_palindrome : Option Bool
  min_length : Option Int
  max_length : Option Int
  word_count : Option Int
  contains_character : Option JSString
  deriving DecidableEq, Repr

/-- The object `{}` the handlers start `filters` from. -/
def Filters.empty : Filters :=
  { is_palindrome := none, min_length := none, max_length := none,
    word_count := none, contains_character := none }

/-- The JSON bodies the handlers send. -/
inductive Body where
  /-- `{ status: "error", message }` -/
  | error (message : String)
  /-- `{ error }` of the list handler -/
  | paramError (error : String)
  /-- one record -/
  | record (r : StringObj)
  /-- the whole array (`GET /`) -/
  | records (rs : List StringObj)
  /-- `{ data, count, filters_applied }` -/
  | filtered (data : List StringObj) (count : Nat) (filters_applied : Filters)
  /-- `{ data, count, interpreted_query: { original, parsed_filters } }` -/
  | interpreted (data : List StringObj) (count : Nat) (original : JSString)
      (parsed_filters : Filters)
  /-- no body (`sendStatus(204)`) -/
  | none
  deriving DecidableEq, Repr

/-- What a handler does with a request: it sends a response, or an exception
    escapes it (Express then answers 500 from its default error handler). -/
inductive Outcome where
  | response (status : Nat) (body : Body)
  | uncaught
  deriving DecidableEq, Repr

/-- The HTTP status the client sees. -/
def Outcome.status : Outcome → Nat
  | .response status _ => status
  | .uncaught => 500

namespace ERROR

def errNoVal : Body := .error "Invalid request body or missing \"value\" field"

def errNonString : Body := .error "Invalid data type for \"value\" (must be string)"

def errExists : Body := .error "String already exists in the system"

end ERROR

/-! ## Handlers -/

/-- `app.get("/")`. -/
def ping (STRINGS : List StringObj) : Outcome × List StringObj :=
  (.response 200 (.records STRINGS), STRINGS)

/-- `app.post("/strings")`; `value` is `req.body.value`, `now` the result of
    `new Date().toISOString()`. -/
def createString (sha256 : JSString → JSString) (now : JSString)
    (STRINGS : List StringObj) (value : JSValue) : Outcome × List StringObj :=
  if !value.truthy then (.response 400 ERROR.errNoVal, STRINGS)
  else
    match sha256Hex sha256 value with
    | none => (.uncaught, STRINGS)
    | some sha256_hash =>
      match value with
      | .string s =>
        if (STRINGS.find? (fun str => str.value == s)).isSome then
          (.response 409 ERROR.errExists, STRINGS)
        else
          let props := analyze sha256 s
          let newStringObj : StringObj :=
            { id := sha256_hash
              value := s
              properties := { props with sha256_hash := sha256_hash }
              created_at := now }
          (.response 201 (.record newStringObj), STRINGS ++ [newStringObj])
      | _ => (.response 422 ERROR.errNonString, STRINGS)

/-- `app.get("/strings/:string_value")`; `string_value` is the decoded path
    parameter of a request that Express routed to this handler. -/
def getString (STRINGS : List StringObj) (string_value : JSString) :
    Outcome × List StringObj :=
  match STRINGS.find? (fun str => string_value == str.value) with
  | none => (.response 404 (.error "String does not exists in the system"), STRINGS)
  | some found => (.response 200 (.record found), STRINGS)

/-- `app.delete("/strings/:string_value")`. -/
def deleteString (STRINGS : List StringObj) (string_value : JSString) :
    Outcome × List StringObj :=
  match STRINGS.find? (fun str => string_value == str.value) with
  | none => (.response 404 (.error "String does not exists in the system"), STRINGS)
  | some _ => (.response 204 .none, STRINGS.filter (fun str => string_value != str.value))

/-! ### Query parsing -/

/-- The text `parseInt` works on: `ToString` of its argument. -/
def QueryValue.text : QueryValue → JSString
  | .str s => s
  | .other text => text

/-- Value of a code unit as a digit (`0-9`, `a-z`, `A-Z`). -/
def digitValue (u : Nat) : Option Nat :=
  if 0x30 ≤ u && u ≤ 0x39 then some (u - 0x30)
  else if 0x61 ≤ u && u ≤ 0x7A then some (u - 0x61 + 10)
  else if 0x41 ≤ u && u ≤ 0x5A then some (u - 0x41 + 10)
  else none

def isRadixDigit (R : Nat) (u : Nat) : Bool :=
  match digitValue u with
  | some d => d < R
  | none => false

/-- `parseInt(string)` with no radix: leading white space is skipped, a sign is
    read, a leading `0x`/`0X` selects radix 16 (else 10), and the longest run
    of digits that follows is the value; what comes after the digits is
    ignored. `none` is `NaN`. The result is the integer the digits denote. The
    code holds the double nearest to that integer: the same number as long as
    its magnitude is at most `2 ^ 53`, a rounding of it above (`Infinity`
    beyond the range of doubles). The integer and the double compare in the
    same way with the length of a string, which is below `2 ^ 53`, so the
    records a filter keeps are the same; the number echoed in
    `filters_applied` is the double, and statements about it are made for
    values up to `2 ^ 53 - 1` only (`ListQuery.WellFormed`). -/
def parseInt (input : JSString) : Option Int :=
  let S := input.dropWhile isWhiteSpace
  let sign : Int := if S.head? = some 0x2D then -1 else 1
  let S := if S.head? = some 0x2B ∨ S.head? = some 0x2D then S.tail else S
  let R : Nat :=
    match S with
    | 0x30 :: x :: _ => if x == 0x78 || x == 0x58 then 16 else 10
    | _ => 10
  let S := if R = 16 then S.drop 2 else S
  let Z := S.takeWhile (isRadixDigit R)
  if Z.isEmpty then none
  else some (sign * ((Z.foldl (fun acc u => acc * R + (digitValue u).getD 0) 0 : Nat) : Int))

/-- Lines 183-190: the `is_palindrome` parameter. -/
def parseIsPalindrome : Option QueryValue → Except Outcome (Option Bool)
  | none => .ok none
  | some is_palindrome =>
    if is_palindrome != .str (js "true") && is_palindrome != .str (js "false") then
      .error (.response 400 (.paramError "is_palindrome must be 'true' or 'false'"))
    else .ok (some (is_palindrome == .str (js "true")))

/-- Lines 192-220: one of `min_length`, `max_length`, `word_count`, with the
    message of its rejection. -/
def parseCount (message : String) : Option QueryValue → Except Outcome (Option Int)
  | none => .ok none
  | some raw =>
    match parseInt raw.text with
    | none => .error (.response 400 (.paramError message))
    | some n =>
      if n < 0 then .error (.response 400 (.paramError message))
      else .ok (some n)

/-- Lines 222-232: the `contains_character` parameter. -/
def parseContainsCharacter : Option QueryValue → Except Outcome (Option JSString)
  | none => .ok none
  | some (.str contains_character) =>
    if contains_character.length != 1 then
      .error (.response 400 (.paramError "contains_character must be a single character"))
    else .ok (some contains_character)
  | some (.other _) =>
    .error (.response 400 (.paramError "contains_character must be a single character"))

/-- The query of `GET /strings` (`req.query`). -/
structure ListQuery where
  is_palindrome : Option QueryValue
  min_length : Option QueryValue
  max_length : Option QueryValue
  word_count : Option QueryValue
  contains_character : Option QueryValue
  deriving DecidableEq, Repr

/-- Lines 180-232: the parameters are checked in this order and the first bad
    one ends the request. -/
def parseFilters (q : ListQuery) : Except Outcome Filters := do
  let is_palindrome ← parseIsPalindrome q.is_palindrome
  let min_length ← parseCount "min_length must be a positive integer" q.min_length
  let max_length ← parseCount "max_length must be a positive integer" q.max_length
  let word_count ← parseCount "word_count must be a positive integer" q.word_count
  let contains_character ← parseContainsCharacter q.contains_character
  pure { is_palindrome := is_palindrome, min_length := min_length, max_length := max_length,
         word_count := word_count, contains_character := contains_character }

/-- `!map[key]`: the entry is `undefined` or `0`. -/
def FrequencyMap.lacks (map : FrequencyMap) (key : JSString) : Bool :=
  match map.get key with
  | none => true
  | some n => n == 0

/-- The callback of `STRINGS.filter` in the list handler (lines 234-276). -/
def listKeeps (filters : Filters) (stringObj : StringObj) : Bool :=
  if (match filters.is_palindrome with
      | some p => stringObj.properties.is_palindrome != p
      | none => false) then false
  else if (match filters.min_length with
      | some m => decide ((stringObj.properties.length : Int) < m)
      | none => false) then false
  else if (match filters.max_length with
      | some m => decide ((stringObj.properties.length : Int) > m)
      | none => false) then false
  else if (match filters.word_count with
      | some w => decide ((stringObj.properties.word_count : Int) ≠ w)
      | none => false) then false
  else if (match filters.contains_character with
      | some c => stringObj.properties.character_frequency_map.lacks c
      | none => false) then false
  else true

/-- The callback of `STRINGS.filter` in the natural-language handler (lines
    113-143); it has no `max_length` test. -/
def naturalLanguageKeeps (filters : Filters) (stringObj : StringObj) : Bool :=
  if (match filters.is_palindrome with
      | some p => stringObj.properties.is_palindrome != p
      | none => false) then false
  else if (match filters.min_length with
      | some m => decide ((stringObj.properties.length : Int) < m)
      | none => false) then false
  else if (match filters.word_count with
      | some w => decide ((stringObj.properties.word_count : Int) ≠ w)
      | none => false) then false
  else if (match filters.contains_character with
      | some c => stringObj.properties.character_frequency_map.lacks c
      | none => false) then false
  else true

/-- `app.get("/strings")`. -/
def listStrings (STRINGS : List StringObj) (q : ListQuery) : Outcome × List StringObj :=
  match parseFilters q with
  | .error rejected => (rejected, STRINGS)
  | .ok filters =>
    let filteredStrings := STRINGS.filter (listKeeps filters)
    (.response 200 (.filtered filteredStrings filteredStrings.length filters), STRINGS)

/-- The `switch (query)` of the natural-language handler (lines 89-111);
    `none` is its `default` branch. -/
def resolvePhrase (query : JSString) : Option Filters :=
  if query = js "all single word palindromic strings" then
    some { Filters.empty with word_count := some 1, is_palindrome := some true }
  else if query = js "strings longer than 10 characters" then
    some { Filters.empty with min_length := some 11 }
  else if query = js "palindromic strings that contain the first vowel" then
    some { Filters.empty with is_palindrome := some true, contains_character := some (js "a") }
  else if query = js "strings containing the letter z" then
    some { Filters.empty with contains_character := some (js "z") }
  else none

/-- The 400 response of the natural-language handler. -/
def unableToParse : Outcome :=
  .response 400 (.error "Unable to parse natural language query")

/-- `app.get("/strings/filter-by-natural-language")`; `query` is
    `req.query.query`. -/
def filterByNaturalLanguage (STRINGS : List StringObj) (query : Option QueryValue) :
    Outcome × List StringObj :=
  match query with
  | none => (unableToParse, STRINGS)
  | some (.other _) => (unableToParse, STRINGS)
  | some (.str query) =>
    if query.isEmpty then (unableToParse, STRINGS)
    else
      match resolvePhrase query with
      | none => (unableToParse, STRINGS)
      | some filters =>
        let filteredStrings := STRINGS.filter (naturalLanguageKeeps filters)
        (.response 200 (.interpreted filteredStrings filteredStrings.length query filters),
          STRINGS)

/-! ## The service as a state machine -/

/-- One request to the service, as its handler receives it. -/
inductive Request where
  | ping
  | createString (now : JSString) (value : JSValue)
  | filterByNaturalLanguage (query : Option QueryValue)
  | getString (string_value : JSString)
  | listStrings (q : ListQuery)
  | deleteString (string_value : JSString)
  deriving DecidableEq, Repr

/-- Handling one request from the array `STRINGS`. -/
def handle (sha256 : JSString → JSString) (STRINGS : List StringObj) :
    Request → Outcome × List StringObj
  | .ping => ping STRINGS
  | .createString now value => createString sha256 now STRINGS value
  | .filterByNaturalLanguage query => filterByNaturalLanguage STRINGS query
  | .getString string_value => getString STRINGS string_value
  | .listStrings q => listStrings STRINGS q
  | .deleteString string_value => deleteString STRINGS string_value

/-- The array after a sequence of requests, starting from `let STRINGS = []`. -/
def run (sha256 : JSString → JSString) (requests : List Request) : List StringObj :=
  requests.foldl (fun STRINGS request => (handle sha256 STRINGS request).2) []

/-! ## Definitions used in the statements -/

/-- The record the create handler builds for the string `s`. -/
def recordOf (sha256 : JSString → JSString) (now : JSString) (s : JSString) : StringObj :=
  { id := sha256 s, value := s, properties := analyze sha256 s, created_at := now }

/-- The 404 body of the get and delete handlers. -/
def notFound : Outcome :=
  .response 404 (.error "String does not exists in the system")

/-- A digest function used to evaluate the handlers on examples. -/
def sampleDigest (s : JSString) : JSString := s.reverse

/-- A small array: the records of `"Racecar"` and `"hello world"`. -/
def sampleStore : List StringObj :=
  run sampleDigest
    [.createString (js "t0") (.string (js "Racecar")),
     .createString (js "t1") (.string (js "hello world"))]

/-- The match conditions of the filter table of the specification, one per
    supplied field: `is_palindrome` equal, `length ≥ min_length`,
    `length ≤ max_length`, `word_count` equal, and `contains_character` a key
    of the frequency map with a non-zero count. -/
def Filters.Matches (filters : Filters) (r : StringObj) : Prop :=
  (∀ p ∈ filters.is_palindrome, r.properties.is_palindrome = p) ∧
  (∀ m ∈ filters.min_length, (r.properties.length : Int) ≥ m) ∧
  (∀ m ∈ filters.max_length, (r.properties.length : Int) ≤ m) ∧
  (∀ w ∈ filters.word_count, (r.properties.word_count : Int) = w) ∧
  (∀ c ∈ filters.contains_character,
    ∃ n ∈ r.properties.character_frequency_map.get c, n ≠ 0)

instance (filters : Filters) (r : StringObj) : Decidable (filters.Matches r) := by
  unfold Filters.Matches
  infer_instance

/-- A list request without any parameter. -/
def ListQuery.empty : ListQuery :=
  { is_palindrome := none, min_length := none, max_length := none,
    word_count := none, contains_character := none }

/-- The four phrases of the lookup table of the specification. -/
def recognizedPhrases : List JSString :=
  [js "all single word palindromic strings",
   js "strings longer than 10 characters",
   js "palindromic strings that contain the first vowel",
   js "strings containing the letter z"]

/-- Characters outside the class `[a-z0-9]`. -/
def outsideLowerAlnum (c : Nat) : Bool := !isLowerAlnum c

/-- ASCII letters and digits, `[A-Za-z0-9]`. -/
def isAsciiAlnum (c : Nat) : Bool :=
  (0x41 ≤ c && c ≤ 0x5A) || (0x61 ≤ c && c ≤ 0x7A) || (0x30 ≤ c && c ≤ 0x39)

/-- Characters outside `[A-Za-z0-9]`. -/
def outsideAsciiAlnum (c : Nat) : Bool := !isAsciiAlnum c

/-- Characters whose lower-case form has no character of `[a-z0-9]`: those
    outside `[A-Za-z0-9]` other than U+0130 and U+212A. -/
def lowersOutsideAlnum (c : Nat) : Bool :=
  !isAsciiAlnum c && c != 0x130 && c != 0x212A

/-- The other case of an ASCII letter; any other character is left alone. -/
def swapAsciiCase (c : Nat) : Nat :=
  if 0x41 ≤ c && c ≤ 0x5A then c + 0x20
  else if 0x61 ≤ c && c ≤ 0x7A then c - 0x20
  else c

/-- One step of a transformation of a string that inserts, deletes or replaces
    characters satisfying `free`, or changes the case of an ASCII letter. -/
inductive EditStep (free : Nat → Bool) : JSString → JSString → Prop where
  | insert (before after : JSString) (c : Nat) :
      free c = true → EditStep free (before ++ after) (before ++ c :: after)
  | delete (before after : JSString) (c : Nat) :
      free c = true → EditStep free (before ++ c :: after) (before ++ after)
  | replace (before after : JSString) (c d : Nat) :
      free c = true → free d = true →
      EditStep free (before ++ c :: after) (before ++ d :: after)
  | recase (before after : JSString) (c : Nat) :
      EditStep free (before ++ c :: after) (before ++ swapAsciiCase c :: after)

/-- A transformation made of any number of such steps. -/
def Edits (free : Nat → Bool) : JSString → JSString → Prop :=
  Relation.ReflTransGen (EditStep free)

/-- Reversal of a string character by character, a surrogate pair being one
    character (`[...value].reverse().join("")`). -/
def reverseByCodePoints (value : JSString) : JSString :=
  (codePoints value).reverse.flatten

/-- Number of starts of a maximal run of characters that are not white space
    in a string that comes right after white space (or the start of the
    value) when `afterWhiteSpace` holds, and right after another character
    otherwise. -/
def countRunsFrom (afterWhiteSpace : Bool) : JSString → Nat
  | [] => 0
  | u :: rest =>
    (if afterWhiteSpace && !isWhiteSpace u then 1 else 0) +
      countRunsFrom (isWhiteSpace u) rest

/-- Number of maximal runs of characters of `value` that are not white
    space. -/
def nonWhiteSpaceRuns (value : JSString) : Nat :=
  countRunsFrom true value

/-- Number of distinct UTF-16 code units of a string. -/
def distinctCodeUnits (value : JSString) : Nat :=
  value.dedup.length

/-- Number of distinct characters of a string as the string iterator yields
    them: a surrogate pair is one character. -/
def distinctCharacters (value : JSString) : Nat :=
  (codePoints value).dedup.length

/-- The string has no high surrogate directly followed by a low surrogate. -/
def noSurrogatePair : JSString → Bool
  | [] => true
  | [_] => true
  | u :: v :: rest =>
    !(isHighSurrogate u && isLowSurrogate v) && noSurrogatePair (v :: rest)

/-- The keys of a frequency map, in insertion order. -/
def FrequencyMap.keys (map : FrequencyMap) : List JSString :=
  map.map (fun kv => kv.1)

/-- The sum of the counts of a frequency map. -/
def FrequencyMap.total (map : FrequencyMap) : Nat :=
  (map.map (fun kv => kv.2)).sum

/-- The text is a non-empty sequence of decimal digits. -/
def isDecimalText (s : JSString) : Bool :=
  !s.isEmpty && s.all (fun u => 0x30 ≤ u && u ≤ 0x39)

/-- The number a sequence of decimal digits denotes. -/
def decimalValue (s : JSString) : Nat :=
  s.foldl (fun acc u => acc * 10 + (u - 0x30)) 0

/-- The largest length a string can have, `2 ^ 53 - 1`; every integer up to it
    is a double (`Number.MAX_SAFE_INTEGER`). -/
def maxSafeInteger : Nat := 2 ^ 53 - 1

/-- The text of a length or a count: the decimal text of a non-negative
    integer that is at most `maxSafeInteger`. -/
def isCountText (s : JSString) : Bool :=
  isDecimalText s && decide (decimalValue s ≤ maxSafeInteger)

/-- A list request all of whose supplied parameters are well formed:
    `is_palindrome` is `true` or `false`, `min_length`, `max_length` and
    `word_count` are decimal texts of non-negative integers not above
    `maxSafeInteger`, and `contains_character` is a string of one code
    unit. -/
def ListQuery.WellFormed (q : ListQuery) : Prop :=
  (∀ v ∈ q.is_palindrome, v = .str (js "true") ∨ v = .str (js "false")) ∧
  (∀ v ∈ q.min_length, ∃ s, v = .str s ∧ isCountText s = true) ∧
  (∀ v ∈ q.max_length, ∃ s, v = .str s ∧ isCountText s = true) ∧
  (∀ v ∈ q.word_count, ∃ s, v = .str s ∧ isCountText s = true) ∧
  (∀ v ∈ q.contains_character, ∃ u, v = .str [u])

/-- The supplied parameters of a well-formed list request with their parsed
    values: the boolean, the numbers the decimal texts denote, the
    character. -/
def ListQuery.parsed (q : ListQuery) : Filters :=
  { is_palindrome := q.is_palindrome.map (fun v => decide (v = .str (js "true")))
    min_length := q.min_length.map (fun v => (decimalValue v.text : Int))
    max_length := q.max_length.map (fun v => (decimalValue v.text : Int))
    word_count := q.word_count.map (fun v => (decimalValue v.text : Int))
    contains_character := q.contains_character.map (fun v => v.text) }

/-! ## Basic facts about the handlers -/

theorem find?_value_eq_none {STRINGS : List StringObj} {s : JSString} :
    STRINGS.find? (fun str => str.value == s) = none ↔ ∀ r ∈ STRINGS, r.value ≠ s := by
  simp [List.find?_eq_none]

theorem find?_eq_value_none {STRINGS : List StringObj} {s : JSString} :
    STRINGS.find? (fun str => s == str.value) = none ↔ ∀ r ∈ STRINGS, r.value ≠ s := by
  simp only [List.find?_eq_none, beq_iff_eq, ne_eq]
  constructor
  · intro h r hr e
    exact h r hr e.symm
  · intro h r hr e
    exact h r hr e.symm

/-- A value that is not a non-empty string is never stored, and the array is
    left as it was. -/
theorem createString_not_string (sha256 : JSString → JSString) (now : JSString)
    (STRINGS : List StringObj) (value : JSValue)
    (h : ∀ s, s ≠ [] → value ≠ .string s) :
    (createString sha256 now STRINGS value).2 = STRINGS ∧
    (createString sha256 now STRINGS value).1.status ≠ 201 ∧
    (createString sha256 now STRINGS value).1.status ≠ 409 := by
  cases value with
  | string s =>
    by_cases hs : s = []
    · subst hs
      simp [createString, JSValue.truthy, Outcome.status]
    · exact absurd rfl (h s hs)
  | bool b => cases b <;> simp [createString, JSValue.truthy, Outcome.status, sha256Hex]
  | number n =>
    by_cases hn : n = 0 <;>
      simp [createString, JSValue.truthy, Outcome.status, sha256Hex, hn]
  | _ => simp [createString, JSValue.truthy, Outcome.status, sha256Hex]

/-- Creating a non-empty string that some record already has. -/
theorem createString_stored (sha256 : JSString → JSString) (now : JSString)
    (STRINGS : List StringObj) (s : JSString) (hs : s ≠ [])
    (h : ∃ r ∈ STRINGS, r.value = s) :
    createString sha256 now STRINGS (.string s) =
      (.response 409 ERROR.errExists, STRINGS) := by
  have hfind : (STRINGS.find? (fun str => str.value == s)).isSome = true := by
    rw [Option.isSome_iff_ne_none, Ne, find?_value_eq_none]
    push_neg
    exact h
  simp [createString, JSValue.truthy, hs, sha256Hex, hfind]

/-- Creating a non-empty string that no record has. -/
theorem createString_fresh (sha256 : JSString → JSString) (now : JSString)
    (STRINGS : List StringObj) (s : JSString) (hs : s ≠ [])
    (h : ∀ r ∈ STRINGS, r.value ≠ s) :
    createString sha256 now STRINGS (.string s) =
      (.response 201 (.record (recordOf sha256 now s)),
        STRINGS ++ [recordOf sha256 now s]) := by
  have hfind : STRINGS.find? (fun str => str.value == s) = none :=
    find?_value_eq_none.mpr h
  simp [createString, JSValue.truthy, hs, sha256Hex, hfind, recordOf, analyze]

/-- A create request answered 201 carried a non-empty string no record had. -/
theorem createString_created (sha256 : JSString → JSString) (now : JSString)
    (STRINGS : List StringObj) (value : JSValue)
    (h : (createString sha256 now STRINGS value).1.status = 201) :
    ∃ s, value = .string s ∧ s ≠ [] ∧ ∀ r ∈ STRINGS, r.value ≠ s := by
  by_cases hv : ∀ s, s ≠ [] → value ≠ .string s
  · exact absurd h (createString_not_string sha256 now STRINGS value hv).2.1
  · push_neg at hv
    obtain ⟨s, hs, rfl⟩ := hv
    refine ⟨s, rfl, hs, ?_⟩
    by_contra hex
    push_neg at hex
    rw [createString_stored sha256 now STRINGS s hs hex] at h
    simp [Outcome.status] at h

theorem run_nil (sha256 : JSString → JSString) : run sha256 [] = [] := rfl

theorem run_concat (sha256 : JSString → JSString) (requests : List Request)
    (request : Request) :
    run sha256 (requests ++ [request]) =
      (handle sha256 (run sha256 requests) request).2 := by
  simp [run, List.foldl_append]

/-- Induction over the requests served so far. -/
theorem run_induction (sha256 : JSString → JSString) (P : List StringObj → Prop)
    (h0 : P [])
    (hstep : ∀ STRINGS request, P STRINGS → P (handle sha256 STRINGS request).2)
    (requests : List Request) : P (run sha256 requests) := by
  induction requests using List.reverseRecOn with
  | nil => exact h0
  | append_singleton requests request ih =>
    rw [run_concat]
    exact hstep _ _ ih

theorem getString_snd (STRINGS : List StringObj) (v : JSString) :
    (getString STRINGS v).2 = STRINGS := by
  unfold getString
  split <;> rfl

theorem listStrings_snd (STRINGS : List StringObj) (q : ListQuery) :
    (listStrings STRINGS q).2 = STRINGS := by
  unfold listStrings
  split <;> rfl

theorem filterByNaturalLanguage_snd (STRINGS : List StringObj) (query : Option QueryValue) :
    (filterByNaturalLanguage STRINGS query).2 = STRINGS := by
  unfold filterByNaturalLanguage
  split
  · rfl
  · rfl
  · split
    · rfl
    · split <;> rfl

theorem deleteString_snd (STRINGS : List StringObj) (v : JSString) :
    (deleteString STRINGS v).2 = STRINGS.filter (fun str => v != str.value) := by
  unfold deleteString
  split
  · next h =>
    have h2 := find?_eq_value_none.mp h
    symm
    rw [List.filter_eq_self]
    intro r hr
    simpa using fun e => h2 r hr e.symm
  · rfl

/-- The create handler either leaves the array alone or appends the record of
    a non-empty string that no record had. -/
theorem createString_snd (sha256 : JSString → JSString) (now : JSString)
    (STRINGS : List StringObj) (value : JSValue) :
    (createString sha256 now STRINGS value).2 = STRINGS ∨
    ∃ s, value = .string s ∧ s ≠ [] ∧ (∀ r ∈ STRINGS, r.value ≠ s) ∧
      (createString sha256 now STRINGS value).2 = STRINGS ++ [recordOf sha256 now s] := by
  by_cases hv : ∀ s, s ≠ [] → value ≠ .string s
  · exact Or.inl (createString_not_string sha256 now STRINGS value hv).1
  · push_neg at hv
    obtain ⟨s, hs, rfl⟩ := hv
    by_cases hex : ∃ r ∈ STRINGS, r.value = s
    · left
      rw [createString_stored sha256 now STRINGS s hs hex]
    · right
      push_neg at hex
      exact ⟨s, rfl, hs, hex, by rw [createString_fresh sha256 now STRINGS s hs hex]⟩

/-- Every stored value is a non-empty string. -/
theorem run_values_nonempty (sha256 : JSString → JSString) (requests : List Request) :
    ∀ r ∈ run sha256 requests, r.value ≠ [] := by
  refine run_induction sha256 (fun STRINGS => ∀ r ∈ STRINGS, r.value ≠ []) ?_ ?_ requests
  · simp
  · intro STRINGS request ih
    cases request with
    | ping => exact ih
    | createString now value =>
      rcases createString_snd sha256 now STRINGS value with h | ⟨s, _, hs, _, h⟩
      · simp only [handle, h]
        exact ih
      · simp only [handle, h]
        intro r hr
        rcases List.mem_append.mp hr with hr | hr
        · exact ih r hr
        · simp only [List.mem_singleton] at hr
          subst hr
          exact hs
    | filterByNaturalLanguage query =>
      simp only [handle, filterByNaturalLanguage_snd]
      exact ih
    | getString v =>
      simp only [handle, getString_snd]
      exact ih
    | listStrings q =>
      simp only [handle, listStrings_snd]
      exact ih
    | deleteString v =>
      simp only [handle, deleteString_snd]
      intro r hr
      exact ih r (List.mem_of_mem_filter hr)

theorem getString_stored_none (STRINGS : List StringObj) (v : JSString)
    (h : ∀ r ∈ STRINGS, r.value ≠ v) : getString STRINGS v = (notFound, STRINGS) := by
  simp [getString, find?_eq_value_none.mpr h, notFound]

theorem deleteString_stored_none (STRINGS : List StringObj) (v : JSString)
    (h : ∀ r ∈ STRINGS, r.value ≠ v) : deleteString STRINGS v = (notFound, STRINGS) := by
  simp [deleteString, find?_eq_value_none.mpr h, notFound]

theorem deleteString_deleted (STRINGS : List StringObj) (v : JSString) :
    ∀ r ∈ (deleteString STRINGS v).2, r.value ≠ v := by
  intro r hr
  rw [deleteString_snd] at hr
  have := (List.mem_filter.mp hr).2
  simpa using fun e => (show v ≠ r.value by simpa using this) e.symm

/-! ## The claims -/

/-- C1: on any array a sequence of requests can produce, if a create request
    for a value has just been answered 201, or if the value is already that of
    a stored record, then a create request for the same value that follows is
    answered 409 with `errExists` and leaves the array (and so its length) as
    it was. -/
theorem create_again_is_duplicate (sha256 : JSString → JSString) (now now' : JSString)
    (requests : List Request) (value : JSValue)
    (h : (createString sha256 now (run sha256 requests) value).1.status = 201 ∨
         ∃ r ∈ run sha256 requests, .string r.value = value) :
    createString sha256 now' (createString sha256 now (run sha256 requests) value).2 value =
      (.response 409 ERROR.errExists,
        (createString sha256 now (run sha256 requests) value).2) ∧
    ((∃ r ∈ run sha256 requests, .string r.value = value) →
      createString sha256 now' (run sha256 requests) value =
        (.response 409 ERROR.errExists, run sha256 requests)) := by
  have stored : (∃ r ∈ run sha256 requests, JSValue.string r.value = value) →
      ∀ t, createString sha256 t (run sha256 requests) value =
        (.response 409 ERROR.errExists, run sha256 requests) := by
    rintro ⟨r, hr, rfl⟩ t
    exact createString_stored sha256 t _ r.value
      (run_values_nonempty sha256 requests r hr) ⟨r, hr, rfl⟩
  refine ⟨?_, fun hex => stored hex now'⟩
  rcases h with h | h
  · obtain ⟨s, rfl, hs, hnew⟩ := createString_created sha256 now _ value h
    rw [createString_fresh sha256 now _ s hs hnew]
    exact createString_stored sha256 now' _ s hs
      ⟨recordOf sha256 now s, by simp, rfl⟩
  · rw [stored h now]
    exact stored h now'

/-- C1, on an example: `"Racecar"` is created on the sample array after a
    delete, then created again. -/
theorem create_again_is_duplicate_witness :
    createString sampleDigest (js "t3")
        (createString sampleDigest (js "t2")
          (run sampleDigest
            [.createString (js "t0") (.string (js "Racecar")),
             .deleteString (js "Racecar")])
          (.string (js "Racecar"))).2 (.string (js "Racecar")) =
      (.response 409 ERROR.errExists,
        (createString sampleDigest (js "t2")
          (run sampleDigest
            [.createString (js "t0") (.string (js "Racecar")),
             .deleteString (js "Racecar")])
          (.string (js "Racecar"))).2) :=
  (create_again_is_duplicate sampleDigest (js "t2") (js "t3")
    [.createString (js "t0") (.string (js "Racecar")), .deleteString (js "Racecar")]
    (.string (js "Racecar")) (Or.inl (by decide))).1

/-- C2: in the array reached from `[]` by any sequence of requests (create,
    get, list, natural-language filter, delete, ping), two records at different
    positions never have the same value. -/
theorem stored_values_distinct (sha256 : JSString → JSString) (requests : List Request) :
    (run sha256 requests).Pairwise (fun a b => a.value ≠ b.value) := by
  refine run_induction sha256 (fun STRINGS => STRINGS.Pairwise (fun a b => a.value ≠ b.value))
    List.Pairwise.nil ?_ requests
  intro STRINGS request ih
  cases request with
  | ping => exact ih
  | createString now value =>
    rcases createString_snd sha256 now STRINGS value with h | ⟨s, _, _, hnew, h⟩
    · simp only [handle, h]
      exact ih
    · simp only [handle, h]
      rw [List.pairwise_append]
      refine ⟨ih, List.pairwise_singleton _ _, ?_⟩
      intro a ha b hb
      simp only [List.mem_singleton] at hb
      subst hb
      exact hnew a ha
  | filterByNaturalLanguage query =>
    simp only [handle, filterByNaturalLanguage_snd]
    exact ih
  | getString v =>
    simp only [handle, getString_snd]
    exact ih
  | listStrings q =>
    simp only [handle, listStrings_snd]
    exact ih
  | deleteString v =>
    simp only [handle, deleteString_snd]
    exact ih.filter _

/-- C3: whatever the array, when a create request is answered 201 its value
    is a string, and a get of that string on the resulting array is answered
    200 with a record whose value is the string and whose properties are
    those computed from the string alone. -/
theorem get_after_create (sha256 : JSString → JSString) (now : JSString)
    (STRINGS : List StringObj) (value : JSValue)
    (h : (createString sha256 now STRINGS value).1.status = 201) :
    ∃ s r, value = .string s ∧
      getString (createString sha256 now STRINGS value).2 s =
        (.response 200 (.record r), (createString sha256 now STRINGS value).2) ∧
      r.value = s ∧ r.properties = analyze sha256 s := by
  obtain ⟨s, rfl, hs, hnew⟩ := createString_created sha256 now STRINGS value h
  refine ⟨s, recordOf sha256 now s, rfl, ?_, rfl, rfl⟩
  rw [createString_fresh sha256 now STRINGS s hs hnew]
  simp [getString, List.find?_append, find?_eq_value_none.mpr hnew, recordOf]

/-- C3, on an example: `"abba"` is created on the sample array and read back. -/
theorem get_after_create_witness :
    ∃ s r, JSValue.string (js "abba") = .string s ∧
      getString (createString sampleDigest (js "t2") sampleStore (.string (js "abba"))).2 s =
        (.response 200 (.record r),
          (createString sampleDigest (js "t2") sampleStore (.string (js "abba"))).2) ∧
      r.value = s ∧ r.properties = analyze sampleDigest s :=
  get_after_create sampleDigest (js "t2") sampleStore (.string (js "abba")) (by decide)

/-- C4: whatever the array, a delete of a value no record has is answered 404
    and leaves the array as it was; and after a delete answered 204, a get of
    the same value and a second delete of it are both answered 404 (and leave
    the array as it is). -/
theorem delete_then_not_found (STRINGS : List StringObj) (v : JSString) :
    ((∀ r ∈ STRINGS, r.value ≠ v) → deleteString STRINGS v = (notFound, STRINGS)) ∧
    ((deleteString STRINGS v).1.status = 204 →
      getString (deleteString STRINGS v).2 v = (notFound, (deleteString STRINGS v).2) ∧
      deleteString (deleteString STRINGS v).2 v = (notFound, (deleteString STRINGS v).2)) :=
  ⟨deleteString_stored_none STRINGS v, fun _ =>
    ⟨getString_stored_none _ v (deleteString_deleted STRINGS v),
     deleteString_stored_none _ v (deleteString_deleted STRINGS v)⟩⟩

/-- C4, on an example: `"Racecar"` is deleted from the sample array, and
    `"abba"`, which is not in it, is not. -/
theorem delete_then_not_found_witness :
    deleteString sampleStore (js "abba") = (notFound, sampleStore) ∧
    getString (deleteString sampleStore (js "Racecar")).2 (js "Racecar") =
      (notFound, (deleteString sampleStore (js "Racecar")).2) ∧
    deleteString (deleteString sampleStore (js "Racecar")).2 (js "Racecar") =
      (notFound, (deleteString sampleStore (js "Racecar")).2) :=
  ⟨(delete_then_not_found sampleStore (js "abba")).1 (by decide),
   (delete_then_not_found sampleStore (js "Racecar")).2 (by decide)⟩

theorem listKeeps_iff_matches (filters : Filters) (r : StringObj) :
    listKeeps filters r = true ↔ filters.Matches r := by
  obtain ⟨ip, mn, mx, wc, cc⟩ := filters
  unfold listKeeps Filters.Matches
  have h1 : (match ip with
      | some p => r.properties.is_palindrome != p
      | none => false) = false ↔ ∀ p ∈ ip, r.properties.is_palindrome = p := by
    cases ip <;> simp
  have h2 : (match mn with
      | some m => decide ((r.properties.length : Int) < m)
      | none => false) = false ↔ ∀ m ∈ mn, (r.properties.length : Int) ≥ m := by
    cases mn <;> simp
  have h3 : (match mx with
      | some m => decide ((r.properties.length : Int) > m)
      | none => false) = false ↔ ∀ m ∈ mx, (r.properties.length : Int) ≤ m := by
    cases mx <;> simp
  have h4 : (match wc with
      | some w => decide ((r.properties.word_count : Int) ≠ w)
      | none => false) = false ↔ ∀ w ∈ wc, (r.properties.word_count : Int) = w := by
    cases wc <;> simp
  have h5 : (match cc with
      | some c => r.properties.character_frequency_map.lacks c
      | none => false) = false ↔
      ∀ c ∈ cc, ∃ n ∈ r.properties.character_frequency_map.get c, n ≠ 0 := by
    cases cc with
    | none => simp
    | some c =>
      unfold FrequencyMap.lacks
      simp only [Option.mem_def, Option.some.injEq, forall_eq']
      generalize r.properties.character_frequency_map.get c = entry
      cases entry <;> simp
  simp only [← h1, ← h2, ← h3, ← h4, ← h5]
  split_ifs <;> simp_all

theorem listKeeps_empty (r : StringObj) : listKeeps Filters.empty r = true := by
  simp [listKeeps, Filters.empty]

/-- C5: for every array and every predicate set, the records kept by the
    filter of the list handler are exactly those that satisfy the match
    condition of every supplied field, in the order they have in the array;
    the predicate set without any field keeps every record; and the list
    handler answers a well-formed request with exactly these records. -/
theorem list_filter_exact (STRINGS : List StringObj) (filters : Filters) :
    STRINGS.filter (listKeeps filters) =
      STRINGS.filter (fun r => decide (filters.Matches r)) ∧
    (STRINGS.filter (listKeeps filters)).Sublist STRINGS ∧
    (∀ r, r ∈ STRINGS.filter (listKeeps filters) ↔ r ∈ STRINGS ∧ filters.Matches r) ∧
    STRINGS.filter (listKeeps Filters.empty) = STRINGS ∧
    (∀ q, (listStrings STRINGS q).1 =
      match parseFilters q with
      | .ok parsed =>
        .response 200 (.filtered (STRINGS.filter (fun r => decide (parsed.Matches r)))
          (STRINGS.filter (fun r => decide (parsed.Matches r))).length parsed)
      | .error rejected => rejected) := by
  have key : ∀ f : Filters, STRINGS.filter (listKeeps f) =
      STRINGS.filter (fun r => decide (f.Matches r)) := by
    intro f
    apply List.filter_congr
    intro r _
    by_cases h : f.Matches r
    · simp [h, (listKeeps_iff_matches f r).mpr h]
    · have : listKeeps f r = false := by
        simpa using fun hk => h ((listKeeps_iff_matches f r).mp hk)
      simp [h, this]
  refine ⟨key filters, List.filter_sublist _, ?_, ?_, ?_⟩
  · intro r
    rw [List.mem_filter, listKeeps_iff_matches]
  · rw [List.filter_eq_self]
    intro r _
    exact listKeeps_empty r
  · intro q
    unfold listStrings
    cases parseFilters q with
    | error rejected => rfl
    | ok parsed => simp only [key parsed]

/-- C6: the `switch` of the natural-language handler sends each of the four
    phrases to its predicate set, with no other field set, and for every
    other `query` (absent, empty, not a string, or any other string) the
    handler answers 400 "Unable to parse natural language query" and leaves
    the array as it was. -/
theorem phrase_table (STRINGS : List StringObj) (query : Option QueryValue)
    (h : ∀ phrase ∈ recognizedPhrases, query ≠ some (.str phrase)) :
    resolvePhrase (js "all single word palindromic strings") =
      some { is_palindrome := some true, min_length := none, max_length := none,
             word_count := some 1, contains_character := none } ∧
    resolvePhrase (js "strings longer than 10 characters") =
      some { is_palindrome := none, min_length := some 11, max_length := none,
             word_count := none, contains_character := none } ∧
    resolvePhrase (js "palindromic strings that contain the first vowel") =
      some { is_palindrome := some true, min_length := none, max_length := none,
             word_count := none, contains_character := some (js "a") } ∧
    resolvePhrase (js "strings containing the letter z") =
      some { is_palindrome := none, min_length := none, max_length := none,
             word_count := none, contains_character := some (js "z") } ∧
    filterByNaturalLanguage STRINGS query = (unableToParse, STRINGS) := by
  refine ⟨by decide, by decide, by decide, by decide, ?_⟩
  unfold filterByNaturalLanguage
  split
  · rfl
  · rfl
  · next phrase =>
    split
    · rfl
    · have hres : resolvePhrase phrase = none := by
        simp only [recognizedPhrases, List.mem_cons, List.mem_singleton, List.not_mem_nil,
          or_false, ne_eq, Option.some.injEq, QueryValue.str.injEq, forall_eq_or_imp,
          forall_eq] at h
        obtain ⟨h1, h2, h3, h4⟩ := h
        unfold resolvePhrase
        rw [if_neg h1, if_neg h2, if_neg h3, if_neg h4]
      rw [hres]

/-- C6, on an example: the phrase with a capital first letter is not
    recognised. -/
theorem phrase_table_witness :
    filterByNaturalLanguage sampleStore (some (.str (js "Strings containing the letter z"))) =
      (unableToParse, sampleStore) :=
  (phrase_table sampleStore (some (.str (js "Strings containing the letter z")))
    (by decide)).2.2.2.2

/-- C7 (what the code does): a create request whose value is the number 123
    is not answered 422: `update` throws before the type test is reached, the
    exception escapes the handler (status 500) and the array is left as it
    was. No create request at all is answered 422: the falsy values `0`,
    `false`, `null` are answered 400 and every other non-string throws. -/
theorem create_non_string_not_422 (sha256 : JSString → JSString) (now : JSString)
    (STRINGS : List StringObj) :
    createString sha256 now STRINGS (.number 123) = (.uncaught, STRINGS) ∧
    (createString sha256 now STRINGS (.number 123)).1.status = 500 ∧
    createString sha256 now STRINGS (.number 0) = (.response 400 ERROR.errNoVal, STRINGS) ∧
    createString sha256 now STRINGS (.bool false) = (.response 400 ERROR.errNoVal, STRINGS) ∧
    createString sha256 now STRINGS .null = (.response 400 ERROR.errNoVal, STRINGS) ∧
    createString sha256 now STRINGS .array = (.uncaught, STRINGS) ∧
    createString sha256 now STRINGS .object = (.uncaught, STRINGS) ∧
    ∀ value, (createString sha256 now STRINGS value).1.status ≠ 422 := by
  refine ⟨rfl, rfl, rfl, rfl, rfl, rfl, rfl, ?_⟩
  intro value
  by_cases hv : ∀ s, s ≠ [] → value ≠ .string s
  · cases value with
    | string s =>
      by_cases hs : s = []
      · subst hs
        simp [createString, JSValue.truthy, Outcome.status]
      · exact absurd rfl (hv s hs)
    | bool b => cases b <;> simp [createString, JSValue.truthy, Outcome.status, sha256Hex]
    | number n =>
      by_cases hn : n = 0 <;>
        simp [createString, JSValue.truthy, Outcome.status, sha256Hex, hn]
    | _ => simp [createString, JSValue.truthy, Outcome.status, sha256Hex]
  · push_neg at hv
    obtain ⟨s, hs, rfl⟩ := hv
    by_cases hex : ∃ r ∈ STRINGS, r.value = s
    · rw [createString_stored sha256 now STRINGS s hs hex]
      simp [Outcome.status]
    · push_neg at hex
      rw [createString_fresh sha256 now STRINGS s hs hex]
      simp [Outcome.status]

/-- C8 (what the code does): the list handler accepts `min_length=12abc` as
    12 and `min_length=5.7` as 5, `max_length=0x10` as 16 and
    `word_count= 2 words` as 2, and answers 200 with the filtered records;
    `-1` and `abc` are answered 400. -/
theorem list_accepts_trailing_garbage :
    listStrings sampleStore { ListQuery.empty with min_length := some (.str (js "12abc")) } =
      (.response 200 (.filtered [] 0 { Filters.empty with min_length := some 12 }),
        sampleStore) ∧
    listStrings sampleStore { ListQuery.empty with min_length := some (.str (js "5.7")) } =
      (.response 200 (.filtered sampleStore 2 { Filters.empty with min_length := some 5 }),
        sampleStore) ∧
    listStrings sampleStore { ListQuery.empty with max_length := some (.str (js "0x10")) } =
      (.response 200 (.filtered sampleStore 2 { Filters.empty with max_length := some 16 }),
        sampleStore) ∧
    (listStrings sampleStore
      { ListQuery.empty with word_count := some (.str (js " 2 words")) }).1.status = 200 ∧
    (listStrings sampleStore
      { ListQuery.empty with min_length := some (.str (js "-1")) }).1.status = 400 ∧
    (listStrings sampleStore
      { ListQuery.empty with min_length := some (.str (js "abc")) }).1.status = 400 := by
  refine ⟨?_, ?_, ?_, ?_, ?_, ?_⟩ <;> decide

/-- C9: whatever the array and the body, a create request is answered 201
    exactly when its value is a non-empty string that no record has; it then
    answers with the record of that string and appends it at the end of the
    array, so that the array lists the records in the order of their creation;
    a missing or empty value is answered 400 and leaves the array as it was. -/
theorem create_succeeds_iff (sha256 : JSString → JSString) (now : JSString)
    (STRINGS : List StringObj) (value : JSValue) :
    ((createString sha256 now STRINGS value).1.status = 201 ↔
      ∃ s, value = .string s ∧ s ≠ [] ∧ ∀ r ∈ STRINGS, r.value ≠ s) ∧
    (∀ s, value = .string s → s ≠ [] → (∀ r ∈ STRINGS, r.value ≠ s) →
      createString sha256 now STRINGS value =
        (.response 201 (.record (recordOf sha256 now s)),
          STRINGS ++ [recordOf sha256 now s]) ∧
      (ping (createString sha256 now STRINGS value).2).1 =
        .response 200 (.records (STRINGS ++ [recordOf sha256 now s])) ∧
      (listStrings (createString sha256 now STRINGS value).2 ListQuery.empty).1 =
        .response 200 (.filtered (STRINGS ++ [recordOf sha256 now s])
          (STRINGS.length + 1) Filters.empty)) ∧
    (value = .undefined ∨ value = .string [] →
      createString sha256 now STRINGS value = (.response 400 ERROR.errNoVal, STRINGS)) := by
  refine ⟨⟨createString_created sha256 now STRINGS value, ?_⟩, ?_, ?_⟩
  · rintro ⟨s, rfl, hs, hnew⟩
    rw [createString_fresh sha256 now STRINGS s hs hnew]
    rfl
  · rintro s rfl hs hnew
    rw [createString_fresh sha256 now STRINGS s hs hnew]
    refine ⟨rfl, rfl, ?_⟩
    have hall : (STRINGS ++ [recordOf sha256 now s]).filter (listKeeps Filters.empty) =
        STRINGS ++ [recordOf sha256 now s] := by
      rw [List.filter_eq_self]
      intro r _
      exact listKeeps_empty r
    have hparse : parseFilters ListQuery.empty = .ok Filters.empty := rfl
    simp only [listStrings, hparse, hall, List.length_append, List.length_singleton]
  · rintro (rfl | rfl) <;> rfl

/-- C9, on an example: `"abba"` is created on the sample array, and the empty
    string is not. -/
theorem create_succeeds_iff_witness :
    createString sampleDigest (js "t2") sampleStore (.string (js "abba")) =
      (.response 201 (.record (recordOf sampleDigest (js "t2") (js "abba"))),
        sampleStore ++ [recordOf sampleDigest (js "t2") (js "abba")]) ∧
    createString sampleDigest (js "t2") sampleStore (.string []) =
      (.response 400 ERROR.errNoVal, sampleStore) :=
  ⟨((create_succeeds_iff sampleDigest (js "t2") sampleStore (.string (js "abba"))).2.1
      (js "abba") rfl (by decide) (by decide)).1,
   (create_succeeds_iff sampleDigest (js "t2") sampleStore (.string [])).2.2 (Or.inr rfl)⟩

theorem cleaned_append (a b : JSString) : cleaned (a ++ b) = cleaned a ++ cleaned b := by
  simp [cleaned, toLowerCase, stripNonAlnum, List.flatMap_append]

theorem cleaned_cons (c : Nat) (s : JSString) :
    cleaned (c :: s) = stripNonAlnum (toLowerCaseUnit c) ++ cleaned s := by
  simp [cleaned, toLowerCase, stripNonAlnum]

theorem strip_lower_of_lowersOutsideAlnum (c : Nat) (h : lowersOutsideAlnum c = true) :
    stripNonAlnum (toLowerCaseUnit c) = [] := by
  simp only [lowersOutsideAlnum, isAsciiAlnum, Bool.and_eq_true, Bool.not_eq_true',
    Bool.or_eq_false_iff, Bool.and_eq_false_imp, decide_eq_true_eq, decide_eq_false_iff_not,
    bne_iff_ne, ne_eq] at h
  obtain ⟨⟨⟨⟨hA, ha⟩, hd⟩, h1⟩, h2⟩ := h
  have e : toLowerCaseUnit c = [c] := by
    unfold toLowerCaseUnit
    have hA' : (decide (0x41 ≤ c) && decide (c ≤ 0x5A)) = false := by
      simpa using hA
    simp [hA', h1, h2]
  rw [e]
  have : isLowerAlnum c = false := by
    simp only [isLowerAlnum, Bool.or_eq_false_iff, Bool.and_eq_false_imp, decide_eq_true_eq,
      decide_eq_false_iff_not]
    exact ⟨ha, hd⟩
  simp [stripNonAlnum, this]

theorem strip_lower_swapAsciiCase (c : Nat) :
    stripNonAlnum (toLowerCaseUnit (swapAsciiCase c)) = stripNonAlnum (toLowerCaseUnit c) := by
  unfold swapAsciiCase
  by_cases hU : 0x41 ≤ c ∧ c ≤ 0x5A
  · have h1 : (decide (0x41 ≤ c) && decide (c ≤ 0x5A)) = true := by simpa using hU
    have h2 : toLowerCaseUnit c = [c + 0x20] := by simp [toLowerCaseUnit, h1]
    have h3 : toLowerCaseUnit (c + 0x20) = [c + 0x20] := by
      have n1 : ¬ (c + 0x20 ≤ 0x5A) := by omega
      have n2 : c ≠ 272 := by omega
      have n3 : c ≠ 8458 := by omega
      simp [toLowerCaseUnit, n1, n2, n3]
    simp only [h1, if_true, h2, h3]
  · have h1 : (decide (0x41 ≤ c) && decide (c ≤ 0x5A)) = false := by
      simpa using hU
    simp only [h1, Bool.false_eq_true, if_false]
    by_cases hL : 0x61 ≤ c ∧ c ≤ 0x7A
    · have h2 : (decide (0x61 ≤ c) && decide (c ≤ 0x7A)) = true := by simpa using hL
      have h3 : toLowerCaseUnit (c - 0x20) = [c] := by
        have n1 : 0x41 ≤ c - 0x20 := by omega
        have n2 : c - 0x20 ≤ 0x5A := by omega
        have n3 : c - 0x20 + 0x20 = c := by omega
        simp [toLowerCaseUnit, n1, n2, n3]
      have h4 : toLowerCaseUnit c = [c] := by
        have n1 : ¬ (c ≤ 0x5A) := by omega
        have n2 : c ≠ 0x130 := by omega
        have n3 : c ≠ 0x212A := by omega
        simp [toLowerCaseUnit, n1, n2, n3]
      simp only [h2, if_true, h3, h4]
    · have h2 : (decide (0x61 ≤ c) && decide (c ≤ 0x7A)) = false := by
        simpa using hL
      simp only [h2, Bool.false_eq_true, if_false]

theorem cleaned_of_editStep {v w : JSString} (h : EditStep lowersOutsideAlnum v w) :
    cleaned v = cleaned w := by
  cases h with
  | insert before after c hc =>
    rw [cleaned_append, cleaned_append, cleaned_cons,
      strip_lower_of_lowersOutsideAlnum c hc, List.nil_append]
  | delete before after c hc =>
    rw [cleaned_append, cleaned_append, cleaned_cons,
      strip_lower_of_lowersOutsideAlnum c hc, List.nil_append]
  | replace before after c d hc hd =>
    rw [cleaned_append, cleaned_append, cleaned_cons, cleaned_cons,
      strip_lower_of_lowersOutsideAlnum c hc, strip_lower_of_lowersOutsideAlnum d hd]
  | recase before after c =>
    rw [cleaned_append, cleaned_append, cleaned_cons, cleaned_cons,
      strip_lower_swapAsciiCase]

/-- C10 (as stated, refuted): inserting the character `A`, which is outside
    `[a-z0-9]`, into `"ab"` turns a string that is not a palindrome into one
    that is; and so does inserting U+212A (Kelvin sign), which is outside
    `[A-Za-z0-9]` as well, into `"ka"`. So `is_palindrome` is not invariant
    under the edits of characters outside `[a-z0-9]`, nor under those of
    characters outside `[A-Za-z0-9]`. -/
theorem palindrome_changed_by_outside_edit :
    (EditStep outsideLowerAlnum (js "ab") (js "abA") ∧
      is_palindrome (js "ab") = false ∧ is_palindrome (js "abA") = true) ∧
    (EditStep outsideAsciiAlnum (js "ka") (js "ka" ++ [0x212A]) ∧
      is_palindrome (js "ka") = false ∧ is_palindrome (js "ka" ++ [0x212A]) = true) ∧
    ¬ (∀ v w, Edits outsideLowerAlnum v w → is_palindrome v = is_palindrome w) ∧
    ¬ (∀ v w, Edits outsideAsciiAlnum v w → is_palindrome v = is_palindrome w) := by
  have step1 : EditStep outsideLowerAlnum (js "ab") (js "abA") :=
    EditStep.insert (js "ab") [] 0x41 (by decide)
  have step2 : EditStep outsideAsciiAlnum (js "ka") (js "ka" ++ [0x212A]) :=
    EditStep.insert (js "ka") [] 0x212A (by decide)
  have p1 : is_palindrome (js "ab") = false := by decide
  have p2 : is_palindrome (js "abA") = true := by decide
  have p3 : is_palindrome (js "ka") = false := by decide
  have p4 : is_palindrome (js "ka" ++ [0x212A]) = true := by decide
  refine ⟨⟨step1, p1, p2⟩, ⟨step2, p3, p4⟩, ?_, ?_⟩
  · intro h
    have e := h _ _ (Relation.ReflTransGen.single step1)
    rw [p1, p2] at e
    exact Bool.false_ne_true e
  · intro h
    have e := h _ _ (Relation.ReflTransGen.single step2)
    rw [p3, p4] at e
    exact Bool.false_ne_true e

/-- C10 (amended): when `w` is obtained from `v` by any number of steps that
    insert, delete or replace characters whose lower-case form has no
    character of `[a-z0-9]`, or that change the case of an ASCII letter, the
    computed `is_palindrome` of `v` and of `w` are equal. -/
theorem palindrome_invariant_under_edits (v w : JSString)
    (h : Edits lowersOutsideAlnum v w) : is_palindrome v = is_palindrome w := by
  have hc : cleaned v = cleaned w := by
    induction h with
    | refl => rfl
    | tail _ step ih => exact ih.trans (cleaned_of_editStep step)
  simp only [is_palindrome, hc]

/-- C10 (amended), on an example: `"Racecar"` and `"race car!"`. -/
theorem palindrome_invariant_under_edits_witness :
    is_palindrome (js "Racecar") = is_palindrome (js "race car!") :=
  palindrome_invariant_under_edits (js "Racecar") (js "race car!")
    (Relation.ReflTransGen.tail
      (Relation.ReflTransGen.tail
        (Relation.ReflTransGen.single (EditStep.recase [] (js "acecar") 0x52))
        (EditStep.insert (js "race") (js "car") 0x20 (by decide)))
      (EditStep.insert (js "race car") [] 0x21 (by decide)))

/-! ### Palindrome test -/

theorem strip_lower_length_le_one (c : Nat) :
    (stripNonAlnum (toLowerCaseUnit c)).length ≤ 1 := by
  unfold toLowerCaseUnit stripNonAlnum
  split_ifs
  · exact (List.length_filter_le _ _).trans (by simp)
  · decide
  · decide
  · exact (List.length_filter_le _ _).trans (by simp)

theorem reverse_eq_self_of_length_le_one {α : Type} (l : List α) (h : l.length ≤ 1) :
    l.reverse = l := by
  match l, h with
  | [], _ => rfl
  | [_], _ => rfl

theorem cleaned_reverse (value : JSString) :
    cleaned value.reverse = (cleaned value).reverse := by
  induction value with
  | nil => rfl
  | cons c s ih =>
    rw [List.reverse_cons, cleaned_append, ih, cleaned_cons, cleaned_cons, List.reverse_append]
    have hnil : cleaned [] = [] := rfl
    rw [hnil, List.append_nil,
      reverse_eq_self_of_length_le_one _ (strip_lower_length_le_one c)]

theorem palindrome_of_cleaned_reverse {v w : JSString}
    (h : cleaned w = (cleaned v).reverse) : is_palindrome v = is_palindrome w := by
  unfold is_palindrome
  rw [h, List.reverse_reverse, Bool.eq_iff_iff]
  simp only [beq_iff_eq]
  exact eq_comm

/-- C11: for every string, the computed `is_palindrome` is true exactly when
    the lower-cased string with every character outside `[a-z0-9]` removed is
    equal to its reversal; it is true whenever that cleaned string is empty,
    as for a string of punctuation and spaces only, and it is true for
    `"Racecar"`, whose cleaned string is `"racecar"`. -/
theorem is_palindrome_iff (value : JSString) :
    (is_palindrome value = true ↔
      stripNonAlnum (toLowerCase value) = (stripNonAlnum (toLowerCase value)).reverse) ∧
    (stripNonAlnum (toLowerCase value) = [] → is_palindrome value = true) ∧
    ((∀ c ∈ value, lowersOutsideAlnum c = true) → is_palindrome value = true) ∧
    cleaned (js "Racecar") = js "racecar" ∧
    is_palindrome (js "Racecar") = true ∧
    is_palindrome (js " ,.!? ") = true := by
  have hempty : stripNonAlnum (toLowerCase value) = [] → is_palindrome value = true := by
    intro h
    simp [is_palindrome, cleaned, h]
  refine ⟨by simp [is_palindrome, cleaned], hempty, ?_, by decide, by decide, by decide⟩
  intro hall
  apply hempty
  have : ∀ s : JSString, (∀ c ∈ s, lowersOutsideAlnum c = true) → cleaned s = [] := by
    intro s
    induction s with
    | nil => intro _; rfl
    | cons c s ih =>
      intro hs
      rw [cleaned_cons, strip_lower_of_lowersOutsideAlnum c (hs c (List.mem_cons_self _ _)),
        ih (fun d hd => hs d (List.mem_cons_of_mem _ hd))]
      rfl
  exact this value hall

/-- C11, on an example: `"?!"` has an empty cleaned string. -/
theorem is_palindrome_iff_witness : is_palindrome (js "?!") = true :=
  (is_palindrome_iff (js "?!")).2.2.1 (by decide)

theorem flatten_codePoints (value : JSString) : (codePoints value).flatten = value := by
  induction value using codePoints.induct with
  | case1 => rfl
  | case2 u => rfl
  | case3 u v rest h ih =>
    rw [codePoints, if_pos h, List.flatten_cons, ih]
    rfl
  | case4 u v rest h ih =>
    rw [codePoints, if_neg h, List.flatten_cons, ih]
    rfl

/-- Every element the string iterator yields is one code unit, or a high
    surrogate followed by a low surrogate. -/
theorem codePoints_shape (value : JSString) :
    ∀ cp ∈ codePoints value, (∃ u, cp = [u]) ∨
      ∃ u v, cp = [u, v] ∧ isHighSurrogate u = true ∧ isLowSurrogate v = true := by
  induction value using codePoints.induct with
  | case1 => simp [codePoints]
  | case2 u =>
    intro cp hcp
    simp only [codePoints, List.mem_singleton] at hcp
    exact Or.inl ⟨u, hcp⟩
  | case3 u v rest h ih =>
    intro cp hcp
    rw [codePoints, if_pos h, List.mem_cons] at hcp
    rcases hcp with rfl | hcp
    · simp only [Bool.and_eq_true] at h
      exact Or.inr ⟨u, v, rfl, h.1, h.2⟩
    · exact ih cp hcp
  | case4 u v rest h ih =>
    intro cp hcp
    rw [codePoints, if_neg h, List.mem_cons] at hcp
    rcases hcp with rfl | hcp
    · exact Or.inl ⟨u, rfl⟩
    · exact ih cp hcp

theorem lowersOutsideAlnum_of_surrogate (u : Nat)
    (h : isHighSurrogate u = true ∨ isLowSurrogate u = true) :
    lowersOutsideAlnum u = true := by
  simp only [isHighSurrogate, isLowSurrogate, Bool.and_eq_true, decide_eq_true_eq] at h
  simp only [lowersOutsideAlnum, isAsciiAlnum, Bool.and_eq_true, Bool.not_eq_true',
    Bool.or_eq_false_iff, Bool.and_eq_false_imp, decide_eq_true_eq, decide_eq_false_iff_not,
    bne_iff_ne, ne_eq]
  omega

theorem cleaned_codePoint_length (value : JSString) :
    ∀ cp ∈ codePoints value, (cleaned cp).length ≤ 1 := by
  intro cp hcp
  rcases codePoints_shape value cp hcp with ⟨u, rfl⟩ | ⟨u, v, rfl, hu, hv⟩
  · rw [cleaned_cons]
    simpa [cleaned, toLowerCase, stripNonAlnum] using strip_lower_length_le_one u
  · rw [cleaned_cons, cleaned_cons,
      strip_lower_of_lowersOutsideAlnum u (lowersOutsideAlnum_of_surrogate u (Or.inl hu)),
      strip_lower_of_lowersOutsideAlnum v (lowersOutsideAlnum_of_surrogate v (Or.inr hv))]
    simp [cleaned, toLowerCase, stripNonAlnum]

theorem cleaned_flatten (pieces : List JSString) :
    cleaned pieces.flatten = (pieces.map cleaned).flatten := by
  induction pieces with
  | nil => rfl
  | cons piece rest ih =>
    rw [List.flatten_cons, cleaned_append, ih, List.map_cons, List.flatten_cons]

theorem cleaned_flatten_reverse (pieces : List JSString)
    (h : ∀ piece ∈ pieces, (cleaned piece).length ≤ 1) :
    cleaned pieces.reverse.flatten = (cleaned pieces.flatten).reverse := by
  induction pieces with
  | nil => rfl
  | cons piece rest ih =>
    have single : [piece].flatten = piece := by simp
    rw [List.reverse_cons, List.flatten_append, cleaned_append,
      ih (fun x hx => h x (List.mem_cons_of_mem _ hx)), single, List.flatten_cons,
      cleaned_append, List.reverse_append,
      reverse_eq_self_of_length_le_one _ (h piece (List.mem_cons_self _ _))]

theorem cleaned_reverseByCodePoints (value : JSString) :
    cleaned (reverseByCodePoints value) = (cleaned value).reverse := by
  unfold reverseByCodePoints
  rw [cleaned_flatten_reverse _ (cleaned_codePoint_length value), flatten_codePoints]

/-- C19 (as stated, refuted): there is no string whose computed
    `is_palindrome` differs from that of its reversal, whether the string is
    reversed code unit by code unit or character by character. -/
theorem no_string_differs_from_its_reversal :
    (¬ ∃ value, is_palindrome value ≠ is_palindrome value.reverse) ∧
    (¬ ∃ value, is_palindrome value ≠ is_palindrome (reverseByCodePoints value)) := by
  constructor
  · rintro ⟨value, h⟩
    exact h (palindrome_of_cleaned_reverse (cleaned_reverse value))
  · rintro ⟨value, h⟩
    exact h (palindrome_of_cleaned_reverse (cleaned_reverseByCodePoints value))

/-- C19 (amended): for every string, the computed `is_palindrome` of the
    string and of its reversal are equal, whether the string is reversed code
    unit by code unit or character by character. -/
theorem palindrome_of_reversal (value : JSString) :
    is_palindrome value = is_palindrome value.reverse ∧
    is_palindrome value = is_palindrome (reverseByCodePoints value) :=
  ⟨palindrome_of_cleaned_reverse (cleaned_reverse value),
   palindrome_of_cleaned_reverse (cleaned_reverseByCodePoints value)⟩

/-! ### Word count -/

theorem countRunsFrom_whiteSpace (b : Bool) (s : JSString)
    (h : ∀ u ∈ s, isWhiteSpace u = true) : countRunsFrom b s = 0 := by
  induction s generalizing b with
  | nil => rfl
  | cons u rest ih =>
    have hu : isWhiteSpace u = true := h u (List.mem_cons_self _ _)
    simp [countRunsFrom, hu, ih true (fun x hx => h x (List.mem_cons_of_mem _ hx))]

theorem countRunsFrom_append_whiteSpace (b : Bool) (s w : JSString)
    (h : ∀ u ∈ w, isWhiteSpace u = true) :
    countRunsFrom b (s ++ w) = countRunsFrom b s := by
  induction s generalizing b with
  | nil => simpa [countRunsFrom] using countRunsFrom_whiteSpace b w h
  | cons u rest ih => simp [countRunsFrom, ih]

theorem countRunsFrom_dropWhile (s : JSString) :
    countRunsFrom true (s.dropWhile isWhiteSpace) = countRunsFrom true s := by
  induction s with
  | nil => rfl
  | cons u rest ih =>
    by_cases hu : isWhiteSpace u = true
    · simp [List.dropWhile_cons, hu, countRunsFrom, ih]
    · simp [List.dropWhile_cons, hu]

theorem countRunsFrom_trim (s : JSString) :
    countRunsFrom true (trim s) = countRunsFrom true s := by
  unfold trim
  have split : s.dropWhile isWhiteSpace =
      ((s.dropWhile isWhiteSpace).reverse.dropWhile isWhiteSpace).reverse ++
        ((s.dropWhile isWhiteSpace).reverse.takeWhile isWhiteSpace).reverse := by
    rw [← List.reverse_append, List.takeWhile_append_dropWhile, List.reverse_reverse]
  have tail : ∀ u ∈ ((s.dropWhile isWhiteSpace).reverse.takeWhile isWhiteSpace).reverse,
      isWhiteSpace u = true := by
    intro u hu
    exact List.mem_takeWhile_imp (List.mem_reverse.mp hu)
  rw [← countRunsFrom_dropWhile s]
  conv_rhs => rw [split]
  rw [countRunsFrom_append_whiteSpace _ _ _ tail]

theorem splitWhiteSpaceAux_count (cur : JSString) (inRun : Bool) (s : JSString)
    (h : inRun = true → cur = []) :
    ((splitWhiteSpaceAux cur inRun s).filter (fun word => decide (word.length > 0))).length =
      if cur = [] then countRunsFrom true s else 1 + countRunsFrom false s := by
  induction s generalizing cur inRun with
  | nil =>
    cases cur <;> simp [splitWhiteSpaceAux, countRunsFrom]
  | cons u rest ih =>
    by_cases hu : isWhiteSpace u = true
    · cases inRun with
      | true =>
        have hcur : cur = [] := h rfl
        subst hcur
        simp [splitWhiteSpaceAux, hu, countRunsFrom, ih [] true (fun _ => rfl)]
      | false =>
        cases cur with
        | nil => simp [splitWhiteSpaceAux, hu, countRunsFrom, ih [] true (fun _ => rfl)]
        | cons c cs =>
          simp [splitWhiteSpaceAux, hu, countRunsFrom, ih [] true (fun _ => rfl),
            Nat.add_comm]
    · have hstep := ih (cur ++ [u]) false (fun hf => absurd hf (by simp))
      cases cur with
      | nil => simpa [splitWhiteSpaceAux, hu, countRunsFrom] using hstep
      | cons c cs => simpa [splitWhiteSpaceAux, hu, countRunsFrom] using hstep

/-- C12: for every string, the computed `word_count` is the number of maximal
    runs of characters that are not white space; it is 0 for the empty string
    and for every string made of white space only, and 2 for
    `"hello world"`. -/
theorem word_count_eq_runs (value : JSString) :
    word_count value = nonWhiteSpaceRuns value ∧
    ((∀ u ∈ value, isWhiteSpace u = true) → word_count value = 0) ∧
    word_count [] = 0 ∧
    word_count (js "hello world") = 2 := by
  have main : ∀ s : JSString, word_count s = nonWhiteSpaceRuns s := by
    intro s
    unfold word_count splitWhiteSpace nonWhiteSpaceRuns
    rw [splitWhiteSpaceAux_count [] false (trim s) (fun hf => absurd hf (by simp))]
    simpa using countRunsFrom_trim s
  refine ⟨main value, ?_, by decide, by decide⟩
  intro hall
  rw [main value]
  exact countRunsFrom_whiteSpace true value hall

/-- C12, on an example: a string of a space, a tab and a line feed. -/
theorem word_count_eq_runs_witness : word_count [0x20, 0x09, 0x0A] = 0 :=
  (word_count_eq_runs [0x20, 0x09, 0x0A]).2.1 (by decide)

/-! ### Distinct characters and the frequency map -/

theorem mem_eraseDups_loop {α : Type} [BEq α] [LawfulBEq α] (as bs : List α) (x : α) :
    x ∈ List.eraseDups.loop as bs ↔ x ∈ as ∨ x ∈ bs := by
  induction as generalizing bs with
  | nil => simp [List.eraseDups.loop]
  | cons a as ih =>
    unfold List.eraseDups.loop
    by_cases h : List.elem a bs = true
    · have hmem : a ∈ bs := List.elem_iff.mp h
      simp only [h, ih, List.mem_cons]
      constructor
      · rintro (hx | hx)
        · exact Or.inl (Or.inr hx)
        · exact Or.inr hx
      · rintro ((rfl | hx) | hx)
        · exact Or.inr hmem
        · exact Or.inl hx
        · exact Or.inr hx
    · have hf : List.elem a bs = false := by simpa using h
      simp only [hf, ih, List.mem_cons]
      tauto

theorem nodup_eraseDups_loop {α : Type} [BEq α] [LawfulBEq α] (as bs : List α)
    (hbs : bs.Nodup) : (List.eraseDups.loop as bs).Nodup := by
  induction as generalizing bs with
  | nil => simpa [List.eraseDups.loop] using hbs
  | cons a as ih =>
    unfold List.eraseDups.loop
    by_cases h : List.elem a bs = true
    · simp only [h]
      exact ih bs hbs
    · have hf : List.elem a bs = false := by simpa using h
      have hmem : a ∉ bs := fun hm => h (List.elem_iff.mpr hm)
      simp only [hf]
      exact ih (a :: bs) (List.nodup_cons.mpr ⟨hmem, hbs⟩)

theorem length_eraseDups {α : Type} [BEq α] [LawfulBEq α] [DecidableEq α] (l : List α) :
    l.eraseDups.length = l.dedup.length := by
  have hnodup : l.eraseDups.Nodup := nodup_eraseDups_loop l [] List.nodup_nil
  have hmem : ∀ x, x ∈ l.eraseDups ↔ x ∈ l := by
    intro x
    simpa [List.eraseDups] using mem_eraseDups_loop l [] x
  rw [← List.toFinset_card_of_nodup hnodup, ← List.card_toFinset]
  congr 1
  ext x
  simp [hmem]

theorem length_eraseDups_loop_le {α : Type} [BEq α] (as bs : List α) :
    (List.eraseDups.loop as bs).length ≤ as.length + bs.length := by
  induction as generalizing bs with
  | nil => simp [List.eraseDups.loop]
  | cons a as ih =>
    unfold List.eraseDups.loop
    cases List.elem a bs with
    | true =>
      have := ih bs
      simp only [List.length_cons]
      omega
    | false =>
      have := ih (a :: bs)
      simp only [List.length_cons] at this ⊢
      omega

theorem length_codePoints_le (value : JSString) :
    (codePoints value).length ≤ value.length := by
  induction value using codePoints.induct with
  | case1 => simp [codePoints]
  | case2 u => simp [codePoints]
  | case3 u v rest h ih =>
    rw [codePoints, if_pos h]
    simp only [List.length_cons]
    omega
  | case4 u v rest h ih =>
    rw [codePoints, if_neg h]
    simp only [List.length_cons] at ih ⊢
    omega

theorem codePoints_of_noSurrogatePair (value : JSString)
    (h : noSurrogatePair value = true) : codePoints value = value.map (fun u => [u]) := by
  induction value using codePoints.induct with
  | case1 => rfl
  | case2 u => rfl
  | case3 u v rest hp ih =>
    simp [noSurrogatePair, hp] at h
  | case4 u v rest hp ih =>
    rw [codePoints, if_neg hp]
    simp only [noSurrogatePair, Bool.and_eq_true] at h
    rw [ih h.2]
    rfl

theorem unique_characters_le_length (value : JSString) :
    unique_characters value ≤ value.length := by
  have h1 := length_eraseDups_loop_le (codePoints value) []
  have h2 := length_codePoints_le value
  simp only [List.length_nil, Nat.add_zero] at h1
  exact le_trans h1 h2

/-- C13 (as stated, refuted): for the string of the two code units U+D83D
    U+DE00 (the one character U+1F600), `length` is 2 and there are 2 distinct
    code units, but the computed `unique_characters` is 1. -/
theorem unique_characters_not_code_units :
    unique_characters [0xD83D, 0xDE00] = 1 ∧
    distinctCodeUnits [0xD83D, 0xDE00] = 2 ∧
    (analyze sampleDigest [0xD83D, 0xDE00]).length = 2 ∧
    ¬ (∀ value, unique_characters value = distinctCodeUnits value) := by
  refine ⟨by decide, by decide, by decide, ?_⟩
  intro h
  exact absurd (h [0xD83D, 0xDE00]) (by decide)

/-- C13 (amended): for every string, the computed `unique_characters` is the
    number of distinct characters of the raw value as the string iterator
    yields them (a surrogate pair is one character); when the value has no
    surrogate pair this is the number of its distinct UTF-16 code units, the
    unit `length` counts in; it is 8 for `"hello world"`. -/
theorem unique_characters_eq (value : JSString) :
    unique_characters value = distinctCharacters value ∧
    (noSurrogatePair value = true → unique_characters value = distinctCodeUnits value) ∧
    unique_characters (js "hello world") = 8 := by
  refine ⟨length_eraseDups _, ?_, by decide⟩
  intro h
  unfold unique_characters distinctCodeUnits
  rw [length_eraseDups, codePoints_of_noSurrogatePair value h,
    List.dedup_map_of_injective (fun a b hab => by simpa using hab), List.length_map]

/-- C13 (amended), on an example: `"Racecar"` has no surrogate pair. -/
theorem unique_characters_eq_witness :
    unique_characters (js "Racecar") = distinctCodeUnits (js "Racecar") :=
  (unique_characters_eq (js "Racecar")).2.1 (by decide)

theorem FrequencyMap.get_set (m : FrequencyMap) (k c : JSString) (n : Nat) :
    (FrequencyMap.set m k n).get c = if c = k then some n else m.get c := by
  induction m with
  | nil =>
    by_cases h : c = k
    · simp [FrequencyMap.set, FrequencyMap.get, h]
    · have h2 : ¬ k = c := fun e => h e.symm
      simp [FrequencyMap.set, FrequencyMap.get, h, h2]
  | cons kv rest ih =>
    obtain ⟨k2, v⟩ := kv
    unfold FrequencyMap.get at ih ⊢
    by_cases hk : k2 = k
    · subst hk
      by_cases h : c = k2
      · subst h
        simp [FrequencyMap.set]
      · have h2 : ¬ k2 = c := fun e => h e.symm
        simp [FrequencyMap.set, h, h2]
    · by_cases h2 : k2 = c
      · subst h2
        simp [FrequencyMap.set, hk]
      · have hb : (k2 == c) = false := by simpa using h2
        simp only [FrequencyMap.set, beq_iff_eq, hk, if_false, List.find?_cons, hb]
        exact ih

theorem get_countChar (m : FrequencyMap) (ch c : JSString) :
    (countChar m ch).get c =
      if c = ch then some ((m.get ch).getD 0 + 1) else m.get c := by
  unfold countChar
  exact FrequencyMap.get_set m ch c _

theorem get_foldl_countChar (l : List JSString) (m : FrequencyMap) (c : JSString) :
    (l.foldl countChar m).get c =
      if l.count c = 0 then m.get c else some ((m.get c).getD 0 + l.count c) := by
  induction l generalizing m with
  | nil => simp
  | cons ch l ih =>
    rw [List.foldl_cons, ih, get_countChar, List.count_cons]
    by_cases h : c = ch
    · subst h
      by_cases h0 : List.count c l = 0
      · simp [h0]
      · simp [h0, Nat.add_assoc, Nat.add_comm 1]
    · have h2 : ¬ ch = c := fun e => h e.symm
      simp [h, h2]

theorem FrequencyMap.keys_set (m : FrequencyMap) (k : JSString) (n : Nat) :
    (FrequencyMap.set m k n).keys = if k ∈ m.keys then m.keys else m.keys ++ [k] := by
  induction m with
  | nil => simp [FrequencyMap.set, FrequencyMap.keys]
  | cons kv rest ih =>
    obtain ⟨k2, v⟩ := kv
    unfold FrequencyMap.keys at ih ⊢
    by_cases hk : k2 = k
    · subst hk
      simp [FrequencyMap.set]
    · have hk2 : ¬ k = k2 := fun e => hk e.symm
      simp only [FrequencyMap.set, beq_iff_eq, hk, if_false, List.map_cons, ih,
        List.mem_cons, hk2, false_or]
      split_ifs <;> simp

theorem keys_foldl_countChar (l : List JSString) (m : FrequencyMap) :
    (l.foldl countChar m).keys = List.eraseDups.loop l m.keys.reverse := by
  induction l generalizing m with
  | nil => simp [List.eraseDups.loop]
  | cons ch l ih =>
    rw [List.foldl_cons, ih]
    unfold countChar
    rw [FrequencyMap.keys_set]
    conv_rhs => unfold List.eraseDups.loop
    by_cases h : ch ∈ m.keys
    · have he : List.elem ch m.keys.reverse = true :=
        List.elem_iff.mpr (List.mem_reverse.mpr h)
      simp only [h, if_true, he]
    · have he : List.elem ch m.keys.reverse = false := by
        have : ¬ List.elem ch m.keys.reverse = true :=
          fun e => h (List.mem_reverse.mp (List.elem_iff.mp e))
        simpa using this
      simp only [h, if_false, he, List.reverse_append, List.reverse_cons, List.reverse_nil,
        List.nil_append, List.singleton_append]

theorem FrequencyMap.total_set (m : FrequencyMap) (k : JSString) (n : Nat) :
    (FrequencyMap.set m k n).total + (m.get k).getD 0 = m.total + n := by
  induction m with
  | nil => simp [FrequencyMap.set, FrequencyMap.get, FrequencyMap.total]
  | cons kv rest ih =>
    obtain ⟨k2, v⟩ := kv
    unfold FrequencyMap.total FrequencyMap.get at ih ⊢
    by_cases hk : k2 = k
    · subst hk
      simp [FrequencyMap.set]
      omega
    · have hb : (k2 == k) = false := by simpa using hk
      simp only [FrequencyMap.set, hb, Bool.false_eq_true, if_false, List.map_cons,
        List.sum_cons, List.find?_cons]
      omega

theorem total_foldl_countChar (l : List JSString) (m : FrequencyMap) :
    (l.foldl countChar m).total = m.total + l.length := by
  induction l generalizing m with
  | nil => simp
  | cons ch l ih =>
    rw [List.foldl_cons, ih]
    have h := FrequencyMap.total_set m ch ((m.get ch).getD 0 + 1)
    unfold countChar
    simp only [List.length_cons]
    omega

theorem keys_character_frequency_map (value : JSString) :
    (character_frequency_map value).keys = (codePoints value).eraseDups := by
  unfold character_frequency_map
  rw [keys_foldl_countChar]
  rfl

theorem get_character_frequency_map (value c : JSString) :
    (character_frequency_map value).get c =
      if c ∈ codePoints value then some ((codePoints value).count c) else none := by
  unfold character_frequency_map
  rw [get_foldl_countChar]
  by_cases h : c ∈ codePoints value
  · have hpos : (codePoints value).count c ≠ 0 :=
      Nat.pos_iff_ne_zero.mp (List.count_pos_iff.mpr h)
    simp [h, hpos, FrequencyMap.get]
  · have h0 : (codePoints value).count c = 0 := List.count_eq_zero.mpr h
    simp [h, h0, FrequencyMap.get]

theorem count_codePoints_singleton (value : JSString) (u : Nat)
    (hhigh : isHighSurrogate u = false) (hlow : isLowSurrogate u = false) :
    (codePoints value).count [u] = value.count u := by
  induction value using codePoints.induct with
  | case1 => rfl
  | case2 a =>
    by_cases h : u = a
    · subst h
      simp [codePoints]
    · have h2 : ¬ a = u := fun e => h e.symm
      simp [codePoints, List.count_cons, h, h2]
  | case3 a b rest hp ih =>
    rw [codePoints, if_pos hp]
    simp only [Bool.and_eq_true] at hp
    have ha : ¬ a = u := by
      intro e
      rw [e, hhigh] at hp
      exact Bool.false_ne_true hp.1
    have hb : ¬ b = u := by
      intro e
      rw [e, hlow] at hp
      exact Bool.false_ne_true hp.2
    simp [List.count_cons, ih, ha, hb]
  | case4 a b rest hp ih =>
    rw [codePoints, if_neg hp, List.count_cons, ih, List.count_cons (a := u) (b := a)]
    by_cases h : a = u
    · simp [h]
    · simp [h]

/-- Every record of a reachable array is the record the create handler
    builds from its value, at some time. -/
theorem run_records_built (sha256 : JSString → JSString) (requests : List Request) :
    ∀ r ∈ run sha256 requests, ∃ now, r = recordOf sha256 now r.value := by
  refine run_induction sha256
    (fun STRINGS => ∀ r ∈ STRINGS, ∃ now, r = recordOf sha256 now r.value) ?_ ?_ requests
  · simp
  · intro STRINGS request ih
    cases request with
    | ping => exact ih
    | createString now value =>
      rcases createString_snd sha256 now STRINGS value with h | ⟨s, _, _, _, h⟩
      · simp only [handle, h]
        exact ih
      · simp only [handle, h]
        intro r hr
        rcases List.mem_append.mp hr with hr | hr
        · exact ih r hr
        · simp only [List.mem_singleton] at hr
          subst hr
          exact ⟨now, rfl⟩
    | filterByNaturalLanguage query =>
      simp only [handle, filterByNaturalLanguage_snd]
      exact ih
    | getString v =>
      simp only [handle, getString_snd]
      exact ih
    | listStrings q =>
      simp only [handle, listStrings_snd]
      exact ih
    | deleteString v =>
      simp only [handle, deleteString_snd]
      intro r hr
      exact ih r (List.mem_of_mem_filter hr)

theorem listKeeps_contains_character (c : JSString) (r : StringObj) :
    listKeeps { Filters.empty with contains_character := some c } r = true ↔
      ∃ n ∈ r.properties.character_frequency_map.get c, n ≠ 0 := by
  rw [listKeeps_iff_matches]
  simp [Filters.Matches, Filters.empty]

/-- C14: for every string and every character `c` (an element the string
    iterator can yield), `c` is a key of the computed frequency map exactly
    when `c` occurs among the characters of the raw value, and the map then
    gives the number of its occurrences; for a code unit that is not a
    surrogate these are its occurrences among the code units of the value.
    So, on every record of a reachable array, the `contains_character` test
    of the list filter holds exactly when the character occurs in the value
    of the record. -/
theorem frequency_map_counts (sha256 : JSString → JSString) (requests : List Request)
    (value c : JSString) :
    (c ∈ (character_frequency_map value).keys ↔ c ∈ codePoints value) ∧
    (character_frequency_map value).get c =
      (if c ∈ codePoints value then some ((codePoints value).count c) else none) ∧
    (∀ u, isHighSurrogate u = false → isLowSurrogate u = false →
      ((character_frequency_map value).get [u] =
        if u ∈ value then some (value.count u) else none)) ∧
    (∀ r ∈ run sha256 requests,
      (listKeeps { Filters.empty with contains_character := some c } r = true ↔
        c ∈ codePoints r.value)) := by
  refine ⟨?_, get_character_frequency_map value c, ?_, ?_⟩
  · rw [keys_character_frequency_map]
    simpa [List.eraseDups] using mem_eraseDups_loop (codePoints value) [] c
  · intro u hhigh hlow
    have hcount := count_codePoints_singleton value u hhigh hlow
    have hmem : [u] ∈ codePoints value ↔ u ∈ value := by
      rw [← List.count_pos_iff, ← List.count_pos_iff, hcount]
    rw [get_character_frequency_map, hcount]
    by_cases h : u ∈ value
    · simp [h, hmem.mpr h]
    · have hn : [u] ∉ codePoints value := fun hm => h (hmem.mp hm)
      simp [h, hn]
  · intro r hr
    obtain ⟨now, hrec⟩ := run_records_built sha256 requests r hr
    have hmap : r.properties.character_frequency_map = character_frequency_map r.value := by
      conv_lhs => rw [hrec]
      rfl
    rw [listKeeps_contains_character, hmap, get_character_frequency_map]
    by_cases h : c ∈ codePoints r.value
    · have hpos : (codePoints r.value).count c ≠ 0 :=
        Nat.pos_iff_ne_zero.mp (List.count_pos_iff.mpr h)
      simp [h, hpos]
    · simp [h]

/-- C14, on an example: the space is a key of the map of `"hello world"`, with
    count 1. -/
theorem frequency_map_counts_witness :
    (character_frequency_map (js "hello world")).get [0x20] =
      (if 0x20 ∈ js "hello world" then some ((js "hello world").count 0x20) else none) :=
  (frequency_map_counts sampleDigest [] (js "hello world") [0x20]).2.2.1 0x20
    (by decide) (by decide)

/-- C20 (as stated, refuted): for the string of the two code units U+D83D
    U+DE00 (the one character U+1F600) the counts of the frequency map add up
    to 1 while `length` is 2. -/
theorem frequency_total_not_length :
    (analyze sampleDigest [0xD83D, 0xDE00]).character_frequency_map.total = 1 ∧
    (analyze sampleDigest [0xD83D, 0xDE00]).length = 2 ∧
    ¬ (∀ value, (analyze sampleDigest value).character_frequency_map.total =
        (analyze sampleDigest value).length) := by
  refine ⟨by decide, by decide, ?_⟩
  intro h
  exact absurd (h [0xD83D, 0xDE00]) (by decide)

/-- C20 (amended): for every string, the counts of the frequency map add up
    to the number of characters the string iterator yields, which is at most
    `length` and equal to it when the value has no surrogate pair; the number
    of keys of the map is `unique_characters`; and `unique_characters` is at
    most `length`. -/
theorem properties_consistent (sha256 : JSString → JSString) (value : JSString) :
    (analyze sha256 value).character_frequency_map.total = (codePoints value).length ∧
    (codePoints value).length ≤ (analyze sha256 value).length ∧
    (noSurrogatePair value = true →
      (analyze sha256 value).character_frequency_map.total =
        (analyze sha256 value).length) ∧
    (analyze sha256 value).character_frequency_map.keys.length =
      (analyze sha256 value).unique_characters ∧
    (analyze sha256 value).unique_characters ≤ (analyze sha256 value).length := by
  have htotal : (character_frequency_map value).total = (codePoints value).length := by
    unfold character_frequency_map
    rw [total_foldl_countChar]
    simp [FrequencyMap.total]
  refine ⟨htotal, length_codePoints_le value, ?_, ?_, unique_characters_le_length value⟩
  · intro h
    show (character_frequency_map value).total = value.length
    rw [htotal, codePoints_of_noSurrogatePair value h, List.length_map]
  · show (character_frequency_map value).keys.length = unique_characters value
    rw [keys_character_frequency_map]
    rfl

/-- C20 (amended), on an example: `"hello world"` has no surrogate pair. -/
theorem properties_consistent_witness :
    (analyze sampleDigest (js "hello world")).character_frequency_map.total =
      (analyze sampleDigest (js "hello world")).length :=
  (properties_consistent sampleDigest (js "hello world")).2.2.1 (by decide)

/-! ### Deleting and keeping records -/

theorem handle_preserves_distinct (sha256 : JSString → JSString) (STRINGS : List StringObj)
    (request : Request) (h : STRINGS.Pairwise (fun a b => a.value ≠ b.value)) :
    (handle sha256 STRINGS request).2.Pairwise (fun a b => a.value ≠ b.value) := by
  cases request with
  | ping => exact h
  | createString now value =>
    rcases createString_snd sha256 now STRINGS value with e | ⟨s, _, _, hnew, e⟩
    · simp only [handle, e]
      exact h
    · simp only [handle, e]
      rw [List.pairwise_append]
      refine ⟨h, List.pairwise_singleton _ _, ?_⟩
      intro a ha b hb
      simp only [List.mem_singleton] at hb
      subst hb
      exact hnew a ha
  | filterByNaturalLanguage query =>
    simp only [handle, filterByNaturalLanguage_snd]
    exact h
  | getString v =>
    simp only [handle, getString_snd]
    exact h
  | listStrings q =>
    simp only [handle, listStrings_snd]
    exact h
  | deleteString v =>
    simp only [handle, deleteString_snd]
    exact h.filter _

theorem run_pairwise_distinct (sha256 : JSString → JSString) (requests : List Request) :
    (run sha256 requests).Pairwise (fun a b => a.value ≠ b.value) :=
  run_induction sha256 (fun STRINGS => STRINGS.Pairwise (fun a b => a.value ≠ b.value))
    List.Pairwise.nil (fun STRINGS request ih => handle_preserves_distinct sha256 STRINGS request ih)
    requests

theorem eq_of_value_eq {STRINGS : List StringObj}
    (h : STRINGS.Pairwise (fun a b => a.value ≠ b.value)) {a b : StringObj}
    (ha : a ∈ STRINGS) (hb : b ∈ STRINGS) (e : a.value = b.value) : a = b := by
  by_contra hne
  exact h.forall (fun _ _ hxy => fun e2 => hxy e2.symm) ha hb hne e

theorem deleteString_stored (STRINGS : List StringObj) (v : JSString)
    (h : ∃ r ∈ STRINGS, r.value = v) :
    deleteString STRINGS v =
      (.response 204 .none, STRINGS.filter (fun str => v != str.value)) := by
  unfold deleteString
  split
  · next hnone =>
    obtain ⟨r, hr, hv⟩ := h
    exact absurd hv (find?_eq_value_none.mp hnone r hr)
  · rfl

/-- C15: on every array a sequence of requests can produce, and for every
    value some record has, the delete handler answers 204 and the new array
    is the old one with one record, the one of that value, taken out: the
    records before and after it are kept as they are and in their order, the
    length decreases by 1, and no record of that value is left. -/
theorem delete_removes_one (sha256 : JSString → JSString) (requests : List Request)
    (v : JSString) (h : ∃ r ∈ run sha256 requests, r.value = v) :
    ∃ before r after,
      run sha256 requests = before ++ r :: after ∧ r.value = v ∧
      deleteString (run sha256 requests) v = (.response 204 .none, before ++ after) ∧
      (deleteString (run sha256 requests) v).2.length + 1 = (run sha256 requests).length ∧
      ∀ x ∈ (deleteString (run sha256 requests) v).2, x.value ≠ v := by
  have hstored := deleteString_stored (run sha256 requests) v h
  have hdistinct := run_pairwise_distinct sha256 requests
  obtain ⟨r, hr, hv⟩ := h
  obtain ⟨before, after, hsplit⟩ := List.append_of_mem hr
  rw [hsplit] at hdistinct
  rw [List.pairwise_append] at hdistinct
  obtain ⟨_, hafter, hcross⟩ := hdistinct
  have hfilter : (before ++ r :: after).filter (fun str => v != str.value) =
      before ++ after := by
    rw [List.filter_append, List.filter_cons]
    have h1 : before.filter (fun str => v != str.value) = before := by
      rw [List.filter_eq_self]
      intro a ha
      have := hcross a ha r (List.mem_cons_self _ _)
      simpa [← hv] using fun e => this e.symm
    have h2 : after.filter (fun str => v != str.value) = after := by
      rw [List.filter_eq_self]
      intro b hb
      have := List.rel_of_pairwise_cons hafter hb
      simpa [← hv] using this
    simp [h1, h2, hv]
  refine ⟨before, r, after, hsplit, hv, ?_, ?_, deleteString_deleted _ v⟩
  · rw [hstored, hsplit, hfilter]
  · rw [hstored, hsplit, hfilter]
    simp only [List.length_append, List.length_cons]
    omega

/-- C15, on an example: `"Racecar"` is deleted from the sample array. -/
theorem delete_removes_one_witness :
    ∃ before r after,
      run sampleDigest
        [.createString (js "t0") (.string (js "Racecar")),
         .createString (js "t1") (.string (js "hello world"))] = before ++ r :: after ∧
      r.value = js "Racecar" ∧
      deleteString (run sampleDigest
        [.createString (js "t0") (.string (js "Racecar")),
         .createString (js "t1") (.string (js "hello world"))]) (js "Racecar") =
        (.response 204 .none, before ++ after) ∧
      (deleteString (run sampleDigest
        [.createString (js "t0") (.string (js "Racecar")),
         .createString (js "t1") (.string (js "hello world"))]) (js "Racecar")).2.length + 1 =
        (run sampleDigest
          [.createString (js "t0") (.string (js "Racecar")),
           .createString (js "t1") (.string (js "hello world"))]).length ∧
      ∀ x ∈ (deleteString (run sampleDigest
        [.createString (js "t0") (.string (js "Racecar")),
         .createString (js "t1") (.string (js "hello world"))]) (js "Racecar")).2,
        x.value ≠ js "Racecar" :=
  delete_removes_one sampleDigest
    [.createString (js "t0") (.string (js "Racecar")),
     .createString (js "t1") (.string (js "hello world"))] (js "Racecar")
    ⟨recordOf sampleDigest (js "t0") (js "Racecar"), by decide, rfl⟩

theorem mem_handle_of_mem (sha256 : JSString → JSString) (STRINGS : List StringObj)
    (request : Request) (r : StringObj) (hr : r ∈ STRINGS)
    (h : request ≠ .deleteString r.value) : r ∈ (handle sha256 STRINGS request).2 := by
  cases request with
  | ping => exact hr
  | createString now value =>
    rcases createString_snd sha256 now STRINGS value with e | ⟨s, _, _, _, e⟩
    · simp only [handle, e]
      exact hr
    · simp only [handle, e]
      exact List.mem_append_left _ hr
  | filterByNaturalLanguage query =>
    simp only [handle, filterByNaturalLanguage_snd]
    exact hr
  | getString v =>
    simp only [handle, getString_snd]
    exact hr
  | listStrings q =>
    simp only [handle, listStrings_snd]
    exact hr
  | deleteString v =>
    simp only [handle, deleteString_snd]
    have hv : v ≠ r.value := fun e => h (by rw [e])
    exact List.mem_filter.mpr ⟨hr, by simpa using hv⟩

/-- C16: every record of an array a sequence of requests can produce has the
    properties computed from its value and an `id` equal to the `sha256_hash`
    of its properties; and after any further request other than the delete of
    its value, the record is still in the array with the same `id`, `value`,
    `properties` and `created_at`, and it is the only record of its value. -/
theorem records_unchanged (sha256 : JSString → JSString) (requests : List Request)
    (request : Request) (r : StringObj) (hr : r ∈ run sha256 requests) :
    r.properties = analyze sha256 r.value ∧
    r.id = r.properties.sha256_hash ∧
    (request ≠ .deleteString r.value →
      r ∈ (handle sha256 (run sha256 requests) request).2 ∧
      ∀ x ∈ (handle sha256 (run sha256 requests) request).2, x.value = r.value → x = r) := by
  obtain ⟨now, hrec⟩ := run_records_built sha256 requests r hr
  refine ⟨?_, ?_, ?_⟩
  · conv_lhs => rw [hrec]
    rfl
  · rw [hrec]
    rfl
  · intro hreq
    have hmem := mem_handle_of_mem sha256 _ request r hr hreq
    refine ⟨hmem, ?_⟩
    intro x hx e
    exact eq_of_value_eq
      (handle_preserves_distinct sha256 _ request (run_pairwise_distinct sha256 requests))
      hx hmem e

/-- C16, on an example: the record of `"Racecar"` in the sample array, and the
    delete of `"hello world"`. -/
theorem records_unchanged_witness :
    recordOf sampleDigest (js "t0") (js "Racecar") ∈
      (handle sampleDigest
        (run sampleDigest
          [.createString (js "t0") (.string (js "Racecar")),
           .createString (js "t1") (.string (js "hello world"))])
        (.deleteString (js "hello world"))).2 :=
  ((records_unchanged sampleDigest
    [.createString (js "t0") (.string (js "Racecar")),
     .createString (js "t1") (.string (js "hello world"))]
    (.deleteString (js "hello world"))
    (recordOf sampleDigest (js "t0") (js "Racecar")) (by decide)).2.2 (by decide)).1

/-! ### The two filtering handlers -/

theorem naturalLanguageKeeps_eq_listKeeps (filters : Filters)
    (h : filters.max_length = none) (r : StringObj) :
    naturalLanguageKeeps filters r = listKeeps filters r := by
  unfold naturalLanguageKeeps listKeeps
  simp [h]

theorem resolvePhrase_max_length (phrase : JSString) (filters : Filters)
    (h : resolvePhrase phrase = some filters) : filters.max_length = none := by
  unfold resolvePhrase at h
  split_ifs at h <;> simp only [Option.some.injEq, reduceCtorEq] at h <;> subst h <;> rfl

theorem resolvePhrase_nonempty (phrase : JSString) (filters : Filters)
    (h : resolvePhrase phrase = some filters) : phrase ≠ [] := by
  rintro rfl
  have hnone : resolvePhrase [] = none := by decide
  rw [hnone] at h
  cases h

theorem filterByNaturalLanguage_resolved (STRINGS : List StringObj) (phrase : JSString)
    (filters : Filters) (h : resolvePhrase phrase = some filters) :
    filterByNaturalLanguage STRINGS (some (.str phrase)) =
      (.response 200 (.interpreted (STRINGS.filter (listKeeps filters))
        (STRINGS.filter (listKeeps filters)).length phrase filters), STRINGS) := by
  have hne : phrase.isEmpty = false := by
    cases phrase with
    | nil => exact absurd rfl (resolvePhrase_nonempty [] filters h)
    | cons _ _ => rfl
  have hkeep : naturalLanguageKeeps filters = listKeeps filters :=
    funext (naturalLanguageKeeps_eq_listKeeps filters (resolvePhrase_max_length phrase filters h))
  simp only [filterByNaturalLanguage, hne, h, hkeep, Bool.false_eq_true, if_false]

theorem resolvePhrase_recognized (phrase : JSString) (h : phrase ∈ recognizedPhrases) :
    ∃ filters, resolvePhrase phrase = some filters := by
  simp only [recognizedPhrases, List.mem_cons, List.mem_singleton, List.not_mem_nil,
    or_false] at h
  have hsome : (resolvePhrase phrase).isSome = true := by
    rcases h with rfl | rfl | rfl | rfl <;> decide
  exact Option.isSome_iff_exists.mp hsome

/-- C17: for every array and each of the four phrases, the natural-language
    handler answers 200 with, as `data`, the records the filter of the list
    handler keeps for the predicate set the phrase resolves to, and with their
    number as `count`. For `"strings containing the letter z"` these are the
    records whose frequency map has a non-zero count for `z`, and for
    `"strings longer than 10 characters"` the records of length greater than
    10. -/
theorem natural_language_agrees_with_list (STRINGS : List StringObj) (phrase : JSString)
    (h : phrase ∈ recognizedPhrases) :
    (∃ filters, resolvePhrase phrase = some filters ∧
      filterByNaturalLanguage STRINGS (some (.str phrase)) =
        (.response 200 (.interpreted (STRINGS.filter (listKeeps filters))
          (STRINGS.filter (listKeeps filters)).length phrase filters), STRINGS)) ∧
    (∃ filters,
      filterByNaturalLanguage STRINGS (some (.str (js "strings containing the letter z"))) =
        (.response 200 (.interpreted
          (STRINGS.filter (fun r =>
            decide (∃ n ∈ r.properties.character_frequency_map.get (js "z"), n ≠ 0)))
          (STRINGS.filter (fun r =>
            decide (∃ n ∈ r.properties.character_frequency_map.get (js "z"), n ≠ 0))).length
          (js "strings containing the letter z") filters), STRINGS)) ∧
    (∃ filters,
      filterByNaturalLanguage STRINGS (some (.str (js "strings longer than 10 characters"))) =
        (.response 200 (.interpreted
          (STRINGS.filter (fun r => decide (r.properties.length > 10)))
          (STRINGS.filter (fun r => decide (r.properties.length > 10))).length
          (js "strings longer than 10 characters") filters), STRINGS)) := by
  refine ⟨?_, ?_, ?_⟩
  · obtain ⟨filters, hres⟩ := resolvePhrase_recognized phrase h
    exact ⟨filters, hres, filterByNaturalLanguage_resolved STRINGS phrase filters hres⟩
  · have hres : resolvePhrase (js "strings containing the letter z") =
        some { Filters.empty with contains_character := some (js "z") } := by decide
    refine ⟨{ Filters.empty with contains_character := some (js "z") }, ?_⟩
    rw [filterByNaturalLanguage_resolved STRINGS _ _ hres]
    have hkeep : (listKeeps { Filters.empty with contains_character := some (js "z") }) =
        fun r => decide (∃ n ∈ r.properties.character_frequency_map.get (js "z"), n ≠ 0) := by
      funext r
      rw [Bool.eq_iff_iff, listKeeps_contains_character]
      simp
    rw [hkeep]
  · have hres : resolvePhrase (js "strings longer than 10 characters") =
        some { Filters.empty with min_length := some 11 } := by decide
    refine ⟨{ Filters.empty with min_length := some 11 }, ?_⟩
    rw [filterByNaturalLanguage_resolved STRINGS _ _ hres]
    have hkeep : (listKeeps { Filters.empty with min_length := some 11 }) =
        fun r => decide (r.properties.length > 10) := by
      funext r
      rw [Bool.eq_iff_iff, listKeeps_iff_matches]
      simp only [Filters.Matches, Filters.empty, Option.mem_def, reduceCtorEq, false_implies,
        implies_true, Option.some.injEq, forall_eq', true_and, and_true, decide_eq_true_eq]
      omega
    rw [hkeep]

/-- C17, on an example: the phrase about the letter `z` on the sample array. -/
theorem natural_language_agrees_with_list_witness :
    ∃ filters, resolvePhrase (js "strings containing the letter z") = some filters ∧
      filterByNaturalLanguage sampleStore
          (some (.str (js "strings containing the letter z"))) =
        (.response 200 (.interpreted (sampleStore.filter (listKeeps filters))
          (sampleStore.filter (listKeeps filters)).length
          (js "strings containing the letter z") filters), sampleStore) :=
  (natural_language_agrees_with_list sampleStore (js "strings containing the letter z")
    (by decide)).1

/-! ### Well-formed list requests -/

theorem isWhiteSpace_digit (u : Nat) (h1 : 0x30 ≤ u) (h2 : u ≤ 0x39) :
    isWhiteSpace u = false := by
  simp only [isWhiteSpace, Bool.or_eq_false_iff, beq_eq_false_iff_ne, ne_eq,
    Bool.and_eq_false_imp, decide_eq_true_eq, decide_eq_false_iff_not]
  omega

theorem isRadixDigit_digit (u : Nat) (h1 : 0x30 ≤ u) (h2 : u ≤ 0x39) :
    isRadixDigit 10 u = true ∧ digitValue u = some (u - 0x30) := by
  have hd : digitValue u = some (u - 0x30) := by
    simp [digitValue, h1, h2]
  refine ⟨?_, hd⟩
  simp only [isRadixDigit, hd, decide_eq_true_eq]
  omega

theorem foldl_digits (l : JSString) (acc : Nat) (h : ∀ x ∈ l, 0x30 ≤ x ∧ x ≤ 0x39) :
    l.foldl (fun acc u => acc * 10 + (digitValue u).getD 0) acc =
      l.foldl (fun acc u => acc * 10 + (u - 0x30)) acc := by
  induction l generalizing acc with
  | nil => rfl
  | cons x l ih =>
    have hx := h x (List.mem_cons_self _ _)
    rw [List.foldl_cons, List.foldl_cons, (isRadixDigit_digit x hx.1 hx.2).2,
      ih _ (fun y hy => h y (List.mem_cons_of_mem _ hy))]
    rfl

/-- On the decimal text of a non-negative integer `parseInt` gives that
    integer. -/
theorem parseInt_decimal (s : JSString) (h : isDecimalText s = true) :
    parseInt s = some (decimalValue s : Int) := by
  simp only [isDecimalText, Bool.and_eq_true, Bool.not_eq_true', List.all_eq_true,
    decide_eq_true_eq] at h
  obtain ⟨hne, hall⟩ := h
  cases s with
  | nil => simp at hne
  | cons u rest =>
    have hu := hall u (List.mem_cons_self _ _)
    have h1 : (u :: rest).dropWhile isWhiteSpace = u :: rest := by
      rw [List.dropWhile_cons, isWhiteSpace_digit u hu.1 hu.2]
      rfl
    have hminus : ¬ u = 0x2D := by omega
    have hplus : ¬ u = 0x2B := by omega
    have htake : (u :: rest).takeWhile (isRadixDigit 10) = u :: rest := by
      rw [List.takeWhile_eq_self_iff]
      intro x hx
      exact (isRadixDigit_digit x (hall x hx).1 (hall x hx).2).1
    have hR : (match u :: rest with
        | 0x30 :: x :: _ => if x == 0x78 || x == 0x58 then 16 else 10
        | _ => 10) = 10 := by
      split
      · next x tl heq =>
        have hx : x ∈ u :: rest := by
          rw [heq]
          simp
        have := hall x hx
        have e1 : ¬ x = 0x78 := by omega
        have e2 : ¬ x = 0x58 := by omega
        simp [e1, e2]
      · rfl
    have hten : ¬ (10 = 16) := by decide
    unfold parseInt
    simp only [h1, List.head?_cons, Option.some.injEq, hminus, hplus, if_false, or_self, hR,
      hten, htake, List.isEmpty_cons, Bool.false_eq_true, foldl_digits _ _ hall, one_mul]
    rfl

theorem parseCount_decimal (message : String) (x : Option QueryValue)
    (h : ∀ v ∈ x, ∃ s, v = .str s ∧ isCountText s = true) :
    parseCount message x = .ok (x.map (fun v => (decimalValue v.text : Int))) := by
  cases x with
  | none => rfl
  | some v =>
    obtain ⟨s, rfl, hcount⟩ := h v rfl
    have hs : isDecimalText s = true := by
      simp only [isCountText, Bool.and_eq_true] at hcount
      exact hcount.1
    have hneg : ¬ ((decimalValue s : Int) < 0) := by omega
    simp only [parseCount, QueryValue.text, parseInt_decimal s hs, hneg, if_false,
      Option.map_some']

theorem parseFilters_wellFormed (q : ListQuery) (h : q.WellFormed) :
    parseFilters q = .ok q.parsed := by
  obtain ⟨hp, hmin, hmax, hwc, hcc⟩ := h
  have e1 : parseIsPalindrome q.is_palindrome =
      .ok (q.is_palindrome.map (fun v => decide (v = .str (js "true")))) := by
    cases hq : q.is_palindrome with
    | none => rfl
    | some v =>
      rcases hp v hq with rfl | rfl
      · rfl
      · rfl
  have e5 : parseContainsCharacter q.contains_character =
      .ok (q.contains_character.map (fun v => v.text)) := by
    cases hq : q.contains_character with
    | none => rfl
    | some v =>
      obtain ⟨u, rfl⟩ := hcc v hq
      rfl
  simp only [parseFilters, e1, parseCount_decimal _ _ hmin, parseCount_decimal _ _ hmax,
    parseCount_decimal _ _ hwc, e5, bind, Except.bind, pure, Except.pure, ListQuery.parsed]

/-- C18: for every array and every list request whose parameters are all well
    formed (the lengths and counts being decimal texts of integers from 0 to
    `2 ^ 53 - 1`, which the code holds exactly), the list handler answers 200
    with, as `data`, the records that satisfy every supplied condition, as
    `count` their number, and as `filters_applied` exactly the supplied
    parameters with the values their texts denote; when no record satisfies
    them `data` is empty and `count` is 0,
    as for `min_length=20` on an array without a record of length 20 or more,
    where the answer is `{data: [], count: 0, filters_applied: {min_length: 20}}`. -/
theorem list_well_formed (STRINGS : List StringObj) (q : ListQuery) (h : q.WellFormed) :
    listStrings STRINGS q =
      (.response 200 (.filtered (STRINGS.filter (fun r => decide (q.parsed.Matches r)))
        (STRINGS.filter (fun r => decide (q.parsed.Matches r))).length q.parsed), STRINGS) ∧
    ((∀ r ∈ STRINGS, ¬ q.parsed.Matches r) →
      listStrings STRINGS q = (.response 200 (.filtered [] 0 q.parsed), STRINGS)) ∧
    ((∀ r ∈ STRINGS, r.properties.length < 20) →
      listStrings STRINGS { ListQuery.empty with min_length := some (.str (js "20")) } =
        (.response 200 (.filtered [] 0 { Filters.empty with min_length := some 20 }),
          STRINGS)) := by
  have general : ∀ q' : ListQuery, q'.WellFormed →
      listStrings STRINGS q' =
        (.response 200 (.filtered (STRINGS.filter (fun r => decide (q'.parsed.Matches r)))
          (STRINGS.filter (fun r => decide (q'.parsed.Matches r))).length q'.parsed),
          STRINGS) := by
    intro q' hq'
    have hkeep : listKeeps q'.parsed = fun r => decide (q'.parsed.Matches r) := by
      funext r
      rw [Bool.eq_iff_iff, listKeeps_iff_matches]
      simp
    simp only [listStrings, parseFilters_wellFormed q' hq', hkeep]
  have nothing : ∀ q' : ListQuery, (∀ r ∈ STRINGS, ¬ q'.parsed.Matches r) →
      STRINGS.filter (fun r => decide (q'.parsed.Matches r)) = [] := by
    intro q' hno
    rw [List.filter_eq_nil_iff]
    intro r hr
    simpa using hno r hr
  refine ⟨general q h, ?_, ?_⟩
  · intro hno
    rw [general q h, nothing q hno]
    rfl
  · intro hshort
    have hwf : ({ ListQuery.empty with min_length := some (.str (js "20")) } :
        ListQuery).WellFormed := by
      refine ⟨?_, ?_, ?_, ?_, ?_⟩ <;> simp [ListQuery.empty]
      decide
    have hparsed : ({ ListQuery.empty with min_length := some (.str (js "20")) } :
        ListQuery).parsed = { Filters.empty with min_length := some 20 } := by
      decide
    rw [general _ hwf, nothing, hparsed]
    · rfl
    · intro r hr
      rw [hparsed]
      have := hshort r hr
      simp only [Filters.Matches, Filters.empty, Option.mem_def, Option.some.injEq,
        forall_eq', reduceCtorEq, false_implies, implies_true, true_and, and_true, not_le,
        ge_iff_le]
      omega

/-- C18, on an example: `min_length=20` on the sample array, whose longest
    value has 11 code units. -/
theorem list_well_formed_witness :
    listStrings sampleStore { ListQuery.empty with min_length := some (.str (js "20")) } =
      (.response 200 (.filtered [] 0 { Filters.empty with min_length := some 20 }),
        sampleStore) :=
  (list_well_formed sampleStore { ListQuery.empty with min_length := some (.str (js "20")) }
    (by
      refine ⟨?_, ?_, ?_, ?_, ?_⟩ <;> simp [ListQuery.empty]
      decide)).2.1 (by decide)

end Server
